import Mathlib

/-!
Verification of the MapMyRepo repository visualizer core.

The embedding models, from `src/components/RepoVisualizer.tsx`:
  - the tree data model `FileSystemNode` (from `src/types.ts`),
  - the graph projection state (`nodes`, `links`) and `toggleFolder`
    (expand/collapse), `handleNodeClick`, `analyzeFile`,
  - the link-force distance function and the drag handlers,
and, from `src/services`, the content-size gate of the local file parsers
and the failure behaviour of `analyzeCode`.

Randomness (`Math.random()` jitter of initial child positions) is
parameterised by an explicit jitter oracle; positions are carried as
integers since no claim depends on position arithmetic.  The d3 runtime
rewrites link endpoints from id strings to node objects; the source
normalises them back to ids (`getId`) at every read and write, so links
are embedded as id pairs.
-/

namespace MapMyRepo

/-- The `NodeType` enum of `src/types.ts`. -/
inductive NodeType where
  | FOLDER
  | FILE
  | FUNCTION
  | CLASS
  | COMPONENT
deriving DecidableEq, Repr

/-- The scalar fields of the `FileSystemNode` interface of `src/types.ts`
(everything except the recursive `children` field). -/
structure FsFields where
  name : String
  ntype : NodeType
  path : String
  content : Option String
  downloadUrl : Option String
  analyzed : Bool
  summary : Option String
  description : Option String
  value : Nat
deriving DecidableEq, Repr

/-- The `FileSystemNode` interface of `src/types.ts`: scalar fields plus an
optional list of children (`children?: FileSystemNode[]`; `none` models the
field being `undefined`). -/
inductive FileSystemNode where
  | mk (fields : FsFields) (children : Option (List FileSystemNode))

/-- The scalar fields of a node. -/
def FileSystemNode.fields : FileSystemNode → FsFields
  | .mk i _ => i

/-- The optional `children` field. -/
def FileSystemNode.childrenOpt : FileSystemNode → Option (List FileSystemNode)
  | .mk _ c => c

/-- The `children` list, `[]` when the field is `undefined`. -/
def FileSystemNode.childrenList (t : FileSystemNode) : List FileSystemNode :=
  match t.childrenOpt with
  | none => []
  | some cs => cs

/-- The `path` field (the stable id). -/
def FileSystemNode.path (t : FileSystemNode) : String := t.fields.path

mutual

/-- All subtrees of a tree (the tree itself and, recursively, the subtrees of
its children), in preorder. -/
def FileSystemNode.subtrees : FileSystemNode → List FileSystemNode
  | .mk i none => [.mk i none]
  | .mk i (some cs) => .mk i (some cs) :: subtreesList cs

/-- All subtrees of the trees of a list, concatenated. -/
def subtreesList : List FileSystemNode → List FileSystemNode
  | [] => []
  | t :: ts => t.subtrees ++ subtreesList ts

end

/-- The paths of every subtree of `t`.  The repository uses paths as stable
unique ids; `allPaths t |>.Nodup` is the corresponding hypothesis. -/
def FileSystemNode.allPaths (t : FileSystemNode) : List String :=
  t.subtrees.map (fun x => x.path)

/-- A proper subtree (a subtree of some child); the tree-descendant relation. -/
def FileSystemNode.properSubtrees (t : FileSystemNode) : List FileSystemNode :=
  subtreesList t.childrenList

mutual

/-- Modelled from the spec (§3 binding invariant, the claim C1 statement):
the ids visible under an expansion gate `e` are the root plus, when the
root's gate is set, recursively the visible ids of its children.  Unfolding
the recursion, an id is listed exactly when it is the root's or when every
ancestor on its path from the root has gate `true` — the spec's
"{root} ∪ {nodes all of whose ancestors are expanded}".  This is the
specification side of the refinement; the code side is the `nodes` list
maintained by `toggleFolder`. -/
def specVisibleIds (e : String → Bool) : FileSystemNode → List String
  | .mk i none => [i.path]
  | .mk i (some cs) => i.path :: (if e i.path then specVisibleIdsList e cs else [])

/-- The visible ids of a list of sibling subtrees, concatenated. -/
def specVisibleIdsList (e : String → Bool) : List FileSystemNode → List String
  | [] => []
  | t :: ts => specVisibleIds e t ++ specVisibleIdsList e ts

end

/-- A disclosure chain from `u` down to `x`: a descent along tree edges in
which every node strictly above `x` has its gate set. -/
inductive VisChain (e : String → Bool) (u : FileSystemNode) : FileSystemNode → Prop where
  | refl : VisChain e u u
  | step {p c : FileSystemNode} :
      VisChain e u p → e p.path = true → c ∈ p.childrenList → VisChain e u c

/-- The `GraphNode` interface of `src/types.ts` as used by `RepoVisualizer`:
stable id, display fields, reference to the tree data, simulation position
(`x`, `y`), the drag pin (`fx`, `fy`, `none` for JS `null`), the disclosure
flag and the projection depth. -/
structure GraphNode where
  id : String
  name : String
  ntype : NodeType
  data : FileSystemNode
  x : Int
  y : Int
  fx : Option Int
  fy : Option Int
  isExpanded : Bool
  depth : Nat

/-- The `GraphLink` interface: endpoints held as ids (the source normalises
d3's object endpoints back to ids via `getId` at every access). -/
structure GraphLink where
  source : String
  target : String
  value : Option Nat
deriving DecidableEq, Repr

/-- The React state of `RepoVisualizer`: the `nodes` and `links` arrays. -/
structure GraphState where
  nodes : List GraphNode
  links : List GraphLink

/-- Graph state plus the `focusNodeId` and `analyzingNodeId` state fields. -/
structure UIState where
  graph : GraphState
  focusNodeId : Option String
  analyzingNodeId : Option String

/-- The root `GraphNode` built by the initialization effect
(`RepoVisualizer.tsx`, the `rootNode` literal): position `(0,0)`, pinned by
`fx = 0, fy = 0`, collapsed, depth 0. -/
def rootNode (data : FileSystemNode) : GraphNode :=
  { id := data.path, name := data.fields.name, ntype := data.fields.ntype,
    data := data, x := 0, y := 0, fx := some 0, fy := some 0,
    isExpanded := false, depth := 0 }

/-- Initial graph state: `setNodes([rootNode])`, no links. -/
def initState (data : FileSystemNode) : GraphState :=
  { nodes := [rootNode data], links := [] }

/-- Initial UI state. -/
def initUI (data : FileSystemNode) : UIState :=
  { graph := initState data, focusNodeId := none, analyzingNodeId := none }

/-- The recursive `findDescendants` of `toggleFolder`: walk the current
`links`, and for every link leaving `pid` collect its target and recurse
from it.  The JS recursion carries no explicit bound; on the acyclic link
sets that arise its depth is bounded by the number of links, which the
embedding passes as fuel. -/
def findDescendants (links : List GraphLink) : Nat → String → List String
  | 0, _ => []
  | fuel + 1, pid =>
    links.flatMap (fun l =>
      if l.source = pid then l.target :: findDescendants links fuel l.target else [])

/-- The per-node body of the `setNodes` updater of both branches of
`toggleFolder`: flip `isExpanded` on the toggled node, keep the rest. -/
def setExpanded (pid : String) (b : Bool) (n : GraphNode) : GraphNode :=
  if n.id = pid then { n with isExpanded := b } else n

/-- The collapse branch of `toggleFolder`: compute the descendant set of
`pid` by edge traversal, keep `pid` itself with `isExpanded := false`, drop
every descendant node and every link touching a descendant. -/
def collapseNode (s : GraphState) (pid : String) : GraphState :=
  let descendants := findDescendants s.links s.links.length pid
  { nodes := (s.nodes.map (setExpanded pid false)).filter
      (fun n => !(descendants.contains n.id)),
    links := s.links.filter (fun l =>
      !(descendants.contains l.source) && !(descendants.contains l.target)) }

/-- The expand branch of `toggleFolder`: one new graph node per child of the
node's tree data, placed at the parent's position plus a random jitter
(`jitter` stands for the two `Math.random()` draws), depth one more than the
parent's, plus a link from the parent to each child; the parent's
`isExpanded` is set. -/
def expandNode (s : GraphState) (p : GraphNode) (jitter : String → Int × Int) :
    GraphState :=
  let newNodes : List GraphNode := p.data.childrenList.map (fun child =>
    { id := child.path, name := child.fields.name, ntype := child.fields.ntype,
      data := child, x := p.x + (jitter child.path).1,
      y := p.y + (jitter child.path).2,
      fx := none, fy := none, isExpanded := false, depth := p.depth + 1 })
  let newLinks : List GraphLink := newNodes.map (fun child =>
    { source := p.id, target := child.id, value := none })
  { nodes := s.nodes.map (setExpanded p.id true) ++ newNodes,
    links := s.links ++ newLinks }

/-- `toggleFolder` of `RepoVisualizer.tsx`.  The source receives the clicked
node object; since ids are unique the embedding looks it up by id.  A
collapsed node with no `children` field hits the `!childrenData` early
return (before `setFocusNodeId`); both completed branches focus the node. -/
def toggleFolder (u : UIState) (nid : String) (jitter : String → Int × Int) : UIState :=
  match u.graph.nodes.find? (fun n => n.id == nid) with
  | none => u
  | some p =>
    if p.isExpanded then
      { u with graph := collapseNode u.graph p.id, focusNodeId := some p.id }
    else
      match p.data.childrenOpt with
      | none => u
      | some _ =>
        { u with graph := expandNode u.graph p jitter, focusNodeId := some p.id }

/-- A sequence of expand/collapse operations: each entry names the clicked
node and carries the jitter oracle for that call. -/
def applyOps (u : UIState) : List (String × (String → Int × Int)) → UIState
  | [] => u
  | op :: ops => applyOps (toggleFolder u op.1 op.2) ops

/-- The expansion gate read off a graph state: `q` is gated when some
visible graph node with id `q` has `isExpanded = true`. -/
def expandedGate (s : GraphState) (q : String) : Bool :=
  s.nodes.any (fun n => n.id == q && n.isExpanded)

/-- The id list of the visible nodes. -/
def GraphState.ids (s : GraphState) : List String := s.nodes.map (fun n => n.id)

/-- The coupling invariant between the tree and a reachable graph state:
distinct ids, every node carries the subtree addressed by its id, the
visible id set is the spec's visible set for the state's own expansion
gate, and the links are exactly the parent/child tree edges between visible
nodes. -/
structure Inv (t : FileSystemNode) (s : GraphState) : Prop where
  nodup : s.ids.Nodup
  data_mem : ∀ n ∈ s.nodes, n.data ∈ t.subtrees
  id_eq : ∀ n ∈ s.nodes, n.id = n.data.path
  vis : ∀ q : String, q ∈ s.ids ↔ q ∈ specVisibleIds (expandedGate s) t
  link_mem : ∀ l ∈ s.links,
    l.value = none ∧ ∃ p c : FileSystemNode, p ∈ t.subtrees ∧ c ∈ p.childrenList ∧
      l.source = p.path ∧ l.target = c.path ∧ l.source ∈ s.ids ∧ l.target ∈ s.ids
  link_complete : ∀ p c : FileSystemNode, p ∈ t.subtrees → c ∈ p.childrenList →
    p.path ∈ s.ids → c.path ∈ s.ids →
    (⟨p.path, c.path, none⟩ : GraphLink) ∈ s.links

/-- n-step reachability along the current link list. -/
inductive LinkReachN (links : List GraphLink) : Nat → String → String → Prop where
  | single {l : GraphLink} : l ∈ links → LinkReachN links 1 l.source l.target
  | cons {l : GraphLink} {n : Nat} {x : String} :
      l ∈ links → LinkReachN links n l.target x → LinkReachN links (n + 1) l.source x

/-- Look up the subtree addressed by a path. -/
def pathNode (t : FileSystemNode) (q : String) : Option FileSystemNode :=
  t.subtrees.find? (fun x => x.path == q)

/-- The link-force target separation (`forceLink(...).distance` of the
initialization effect): it reads the TARGET node's `type` — `FUNCTION`
targets get 80, `FILE` targets 120, everything else (folders, but also
`CLASS` and `COMPONENT` symbol nodes) falls through to 180. -/
def linkDistance (target : NodeType) : Nat :=
  if target = NodeType.FUNCTION then 80
  else if target = NodeType.FILE then 120
  else 180

/-- `getNodeSize` of `RepoVisualizer.tsx`. -/
def getNodeSize : NodeType → Nat
  | NodeType.FOLDER => 14
  | NodeType.FILE => 10
  | NodeType.FUNCTION => 6
  | NodeType.CLASS => 8
  | NodeType.COMPONENT => 8

/-- `dragstarted`: pin the node at its current position. -/
def dragstarted (n : GraphNode) : GraphNode :=
  { n with fx := some n.x, fy := some n.y }

/-- `dragged`: pin the node at the pointer position. -/
def dragged (px py : Int) (n : GraphNode) : GraphNode :=
  { n with fx := some px, fy := some py }

/-- `dragended`: clear the pin (`d.fx = null; d.fy = null`), releasing the
node — any node, the root included — into normal simulation dynamics. -/
def dragended (n : GraphNode) : GraphNode :=
  { n with fx := none, fy := none }

/-- The `type` enum of `AIAnalysisResult.items` entries. -/
inductive AIItemType where
  | FUNCTION
  | CLASS
  | COMPONENT
deriving DecidableEq, Repr

/-- One entry of `AIAnalysisResult.items` (`src/types.ts`). -/
structure AIAnalysisItem where
  name : String
  itype : AIItemType
  description : String
deriving DecidableEq, Repr

/-- `AIAnalysisResult` of `src/types.ts`. -/
structure AIAnalysisResult where
  summary : String
  items : List AIAnalysisItem
deriving DecidableEq, Repr

/-- The item-type mapping of `analyzeFile`:
`item.type === 'FUNCTION' ? FUNCTION : (item.type === 'CLASS' ? CLASS :
COMPONENT)`. -/
def mapItemType (it : AIItemType) : NodeType :=
  if it = AIItemType.FUNCTION then NodeType.FUNCTION
  else if it = AIItemType.CLASS then NodeType.CLASS
  else NodeType.COMPONENT

/-- `analyzeCode` of `src/services/geminiService.ts`, with the external
effects as parameters: `apiKey` is `process.env.API_KEY` (a missing key
returns `null`); `response` is the outcome of the model call — a thrown
error (caught by the `try`, returning `null`) or an optional response
text (a missing text returns `null`); `parse` is `JSON.parse` on the text,
whose exception the same `try` turns into `null`.  Every failure mode
yields `null`; no exception escapes. -/
def analyzeCode (apiKey : Option String) (response : Except String (Option String))
    (parse : String → Option AIAnalysisResult) : Option AIAnalysisResult :=
  match apiKey with
  | none => none
  | some _ =>
    match response with
    | Except.error _ => none
    | Except.ok none => none
    | Except.ok (some text) => parse text

/-- JS truthiness of an optional string field (`undefined` and `""` are
falsy). -/
def strTruthy : Option String → Bool
  | none => false
  | some s => !(s == "")

/-- The successful-analysis mutation of `analyzeFile` on the node's tree
data: `analyzed = true`, `summary = result.summary`, and `children =
result.items.map(...)` — an ASSIGNMENT that replaces any previous children;
each synthetic child gets the derived path `node.id + "#" + item.name`,
`value: 1`, and no content/children of its own. -/
def enrichData (d : FileSystemNode) (r : AIAnalysisResult) : FileSystemNode :=
  FileSystemNode.mk
    { d.fields with analyzed := true, summary := some r.summary }
    (some (r.items.map (fun item =>
      FileSystemNode.mk
        { name := item.name, ntype := mapItemType item.itype,
          path := d.path ++ "#" ++ item.name,
          content := none, downloadUrl := none, analyzed := false,
          summary := none, description := some item.description, value := 1 }
        none)))

/-- The File-branch guard of `handleNodeClick`:
`!d.data.analyzed && (d.data.content || d.data.downloadUrl)` (JS
truthiness). -/
def fileClickGuard (i : FsFields) : Bool :=
  !i.analyzed && (strTruthy i.content || strTruthy i.downloadUrl)

/-- The environment of one `analyzeFile` run: the outcome of
`fetchRemoteFileContent` (used only when the node has no truthy local
content but has a `downloadUrl`) and the result of `analyzeCode` (which
never throws — all its failures surface as `null`, here `none`). -/
structure ClickEnv where
  fetchRes : Except String String
  anaRes : Option AIAnalysisResult

/-- `analyzeFile` of `RepoVisualizer.tsx`: set the analyzing indicator and
the camera focus; resolve content (fetching remotely when local content is
falsy and a `downloadUrl` exists — a fetch failure is caught and returns
early, clearing the indicator); run `analyzeCode`; when the result is
non-null, mutate the node's tree data via `enrichData` (visible through
the nodes array, which aliases the mutated object), reveal the children
with `toggleFolder` on the updated node, and emit a second `onNodeSelect`
with a copy of the updated data; the `finally` clears the indicator.
Returns the new UI state and the `onNodeSelect` payloads it emitted. -/
def analyzeFile (u : UIState) (d : GraphNode) (jitter : String → Int × Int)
    (env : ClickEnv) : UIState × List FileSystemNode :=
  let u1 : UIState := { u with analyzingNodeId := some d.id, focusNodeId := some d.id }
  let c0 := d.data.fields.content
  let contentRes : Option (Option String) :=
    if strTruthy c0 = false ∧ strTruthy d.data.fields.downloadUrl = true then
      match env.fetchRes with
      | Except.ok c => some (some c)
      | Except.error _ => none
    else some c0
  match contentRes with
  | none => ({ u1 with analyzingNodeId := none }, [])
  | some content =>
    match env.anaRes with
    | none => ({ u1 with analyzingNodeId := none }, [])
    | some r =>
      let cached : FileSystemNode :=
        FileSystemNode.mk { d.data.fields with content := content } d.data.childrenOpt
      let newData := enrichData cached r
      let g2 : GraphState :=
        { u1.graph with nodes := u1.graph.nodes.map (fun n =>
            if n.id = d.id then { n with data := newData } else n) }
      let u2 := toggleFolder { u1 with graph := g2 } d.id jitter
      ({ u2 with analyzingNodeId := none }, [newData])

/-- `handleNodeClick` of `RepoVisualizer.tsx`: always notifies
`onNodeSelect(d.data)` first; then a Folder toggles, a File analyzes when
the guard passes, else toggles when it has children, else does nothing;
any other kind (the symbol nodes) only sets the camera focus.  Returns the
new UI state and the emitted `onNodeSelect` payloads in order. -/
def handleNodeClick (u : UIState) (d : GraphNode) (jitter : String → Int × Int)
    (env : ClickEnv) : UIState × List FileSystemNode :=
  match d.ntype with
  | NodeType.FOLDER => (toggleFolder u d.id jitter, [d.data])
  | NodeType.FILE =>
    if fileClickGuard d.data.fields then
      let res := analyzeFile u d jitter env
      (res.1, d.data :: res.2)
    else if d.data.childrenList.length > 0 then
      (toggleFolder u d.id jitter, [d.data])
    else (u, [d.data])
  | _ => ({ u with focusNodeId := some d.id }, [d.data])

/-- Test harness for concrete scenarios: click the visible node carrying
`nid` (the d3 click callback receives the bound datum; the harness looks it
up by its unique id). -/
def clickById (u : UIState) (nid : String) (jitter : String → Int × Int)
    (env : ClickEnv) : UIState × List FileSystemNode :=
  match u.graph.nodes.find? (fun n => n.id == nid) with
  | some d => handleNodeClick u d jitter env
  | none => (u, [])

/-- State of the two-concurrent-clicks model for the coalescing claim: the
clicked File node's scalar fields, the `analyzingNodeId` indicator, and a
ghost counter of `analyzeCode` invocations. -/
structure ConcState where
  fileData : FsFields
  analyzingNodeId : Option String
  calls : Nat

/-- One click on the file, run synchronously up to the `await analyzeCode`
suspension point of `analyzeFile`: the guard is evaluated against the
current node data — which a still-pending earlier click has not mutated,
since `analyzeFile` writes `node.data` only after its await resolves — and
when it passes, `setAnalyzingNodeId` runs and one `analyzeCode` invocation
is issued.  Nothing in `handleNodeClick` or `analyzeFile` consults
`analyzingNodeId` before invoking. -/
def clickStart (nid : String) (s : ConcState) : ConcState :=
  if fileClickGuard s.fileData then
    { s with analyzingNodeId := some nid, calls := s.calls + 1 }
  else s

/-- The file-node construction of `parseFilesToTree`
(`src/services/fileService.ts`, directory upload): type FILE, no children
field, `value = file.size`, and `content` read from the file only when
`file.size < 200000` (a read error is caught and leaves it absent, modelled
by the `Except` parameter). -/
def parseFilesFileNode (name path : String) (size : Nat)
    (readText : Except String String) : FileSystemNode :=
  FileSystemNode.mk
    { name := name, ntype := NodeType.FILE, path := path,
      content := if size < 200000 then readText.toOption else none,
      downloadUrl := none, analyzed := false, summary := none,
      description := none, value := size }
    none

/-- The file-node construction of `parseFileEntryToTree` (drag-and-drop):
path is `parentPath + "/" + name` (or bare `name` at the root), and the
same strict `size < 200000` gate guards reading `content`. -/
def parseFileEntryFileNode (name parentPath : String) (size : Nat)
    (readText : Except String String) : FileSystemNode :=
  FileSystemNode.mk
    { name := name, ntype := NodeType.FILE,
      path := if parentPath == "" then name else parentPath ++ "/" ++ name,
      content := if size < 200000 then readText.toOption else none,
      downloadUrl := none, analyzed := false, summary := none,
      description := none, value := size }
    none

/-- The spec §8 scenario file node: `main.ts`, unanalyzed, with local
content. -/
def scenarioMain : FileSystemNode :=
  FileSystemNode.mk
    { name := "main.ts", ntype := NodeType.FILE, path := "main.ts",
      content := some "code", downloadUrl := none, analyzed := false,
      summary := none, description := none, value := 7 }
    none

/-- The scenario folder `src` containing `main.ts`. -/
def scenarioSrc : FileSystemNode :=
  FileSystemNode.mk
    { name := "src", ntype := NodeType.FOLDER, path := "src", content := none,
      downloadUrl := none, analyzed := false, summary := none,
      description := none, value := 7 }
    (some [scenarioMain])

/-- The scenario root folder. -/
def scenarioTree : FileSystemNode :=
  FileSystemNode.mk
    { name := "root", ntype := NodeType.FOLDER, path := "root", content := none,
      downloadUrl := none, analyzed := false, summary := none,
      description := none, value := 7 }
    (some [scenarioSrc])

/-- The scenario analysis result: one Function item named `run`. -/
def scenarioResult : AIAnalysisResult :=
  { summary := "entry module",
    items := [{ name := "run", itype := AIItemType.FUNCTION,
                description := "entry point" }] }

/-- The scenario environment: analysis succeeds. -/
def scenarioEnv : ClickEnv :=
  { fetchRes := Except.ok "", anaRes := some scenarioResult }

/-- A fixed jitter outcome for the scenario. -/
def scenarioJitter : String → Int × Int := fun _ => (1, 1)

/-- The UI state after clicking root, then src, then main.ts. -/
def scenarioFinal : UIState :=
  (clickById ((clickById ((clickById (initUI scenarioTree) "root"
    scenarioJitter scenarioEnv).1) "src" scenarioJitter scenarioEnv).1)
    "main.ts" scenarioJitter scenarioEnv).1

/-- The `onNodeSelect` payloads emitted by the third (file) click of the
scenario. -/
def scenarioThirdSelections : List FileSystemNode :=
  (clickById ((clickById ((clickById (initUI scenarioTree) "root"
    scenarioJitter scenarioEnv).1) "src" scenarioJitter scenarioEnv).1)
    "main.ts" scenarioJitter scenarioEnv).2

/-- A file node that already carries a child named `keep` before
enrichment. -/
def preEnrichedFile : FileSystemNode :=
  FileSystemNode.mk
    { name := "old.ts", ntype := NodeType.FILE, path := "old.ts",
      content := some "x", downloadUrl := none, analyzed := false,
      summary := none, description := none, value := 1 }
    (some [FileSystemNode.mk
      { name := "keep", ntype := NodeType.FUNCTION, path := "old.ts#keep",
        content := none, downloadUrl := none, analyzed := false,
        summary := none, description := some "kept", value := 1 } none])

/-- The fields of an unanalyzed file with local content, for the
concurrency model. -/
def concFileFields : FsFields :=
  { name := "a.ts", ntype := NodeType.FILE, path := "a.ts",
    content := some "x", downloadUrl := none, analyzed := false,
    summary := none, description := none, value := 1 }

/-- Initial state of the concurrency model: nothing in flight, no calls
made. -/
def concState0 : ConcState :=
  { fileData := concFileFields, analyzingNodeId := none, calls := 0 }

/-- A concrete graph node for the scenario file, as a click datum. -/
def scenarioFileNode : GraphNode :=
  { id := "main.ts", name := "main.ts", ntype := NodeType.FILE,
    data := scenarioMain, x := 0, y := 0, fx := none, fy := none,
    isExpanded := false, depth := 2 }

/-- An environment whose analysis fails. -/
def failEnv : ClickEnv := { fetchRes := Except.ok "", anaRes := none }

/-- A concrete symbol graph node (the synthetic `main.ts#run`). -/
def scenarioSymbolNode : GraphNode :=
  { id := "main.ts#run", name := "run", ntype := NodeType.FUNCTION,
    data := FileSystemNode.mk
      { name := "run", ntype := NodeType.FUNCTION, path := "main.ts#run",
        content := none, downloadUrl := none, analyzed := false,
        summary := none, description := some "entry point", value := 1 }
      none,
    x := 0, y := 0, fx := none, fy := none, isExpanded := false, depth := 3 }

@[simp] theorem FileSystemNode.fields_mk (i : FsFields)
    (c : Option (List FileSystemNode)) :
    (FileSystemNode.mk i c).fields = i := rfl

@[simp] theorem FileSystemNode.childrenOpt_mk (i : FsFields)
    (c : Option (List FileSystemNode)) :
    (FileSystemNode.mk i c).childrenOpt = c := rfl

@[simp] theorem FileSystemNode.path_mk (i : FsFields)
    (c : Option (List FileSystemNode)) :
    (FileSystemNode.mk i c).path = i.path := rfl

theorem FileSystemNode.sizeOf_lt_of_mem_childrenList {t c : FileSystemNode}
    (h : c ∈ t.childrenList) : sizeOf c < sizeOf t := by
  cases t with
  | mk i co =>
    cases co with
    | none => simp [childrenList, childrenOpt] at h
    | some cs =>
      simp only [childrenList, childrenOpt] at h
      have h1 : sizeOf c < sizeOf cs := List.sizeOf_lt_of_mem h
      simp only [mk.sizeOf_spec, Option.some.sizeOf_spec]
      omega

/-- Custom induction principle for the nested inductive: to prove a property
of every tree it suffices to prove it for a node given it for all children. -/
theorem FileSystemNode.ind {motive : FileSystemNode → Prop}
    (h : ∀ i co, (∀ c, c ∈ (FileSystemNode.mk i co).childrenList → motive c) →
      motive (FileSystemNode.mk i co)) :
    ∀ t, motive t
  | .mk i co => h i co (fun c hc => ind h c)
termination_by t => sizeOf t
decreasing_by
  exact FileSystemNode.sizeOf_lt_of_mem_childrenList hc

theorem FileSystemNode.subtrees_def (t : FileSystemNode) :
    t.subtrees = t :: subtreesList t.childrenList := by
  cases t with
  | mk i co =>
    cases co with
    | none => simp [subtrees, childrenList, childrenOpt, subtreesList]
    | some cs => simp [subtrees, childrenList, childrenOpt]

@[simp] theorem subtreesList_nil : subtreesList [] = [] := rfl

@[simp] theorem subtreesList_cons (t : FileSystemNode) (ts : List FileSystemNode) :
    subtreesList (t :: ts) = t.subtrees ++ subtreesList ts := rfl

theorem mem_subtreesList {x : FileSystemNode} {ts : List FileSystemNode} :
    x ∈ subtreesList ts ↔ ∃ c ∈ ts, x ∈ c.subtrees := by
  induction ts with
  | nil => simp
  | cons t ts ih => simp [ih]

theorem FileSystemNode.self_mem_subtrees (t : FileSystemNode) : t ∈ t.subtrees := by
  rw [t.subtrees_def]; exact List.mem_cons_self _ _

theorem FileSystemNode.child_mem_subtrees {t c : FileSystemNode}
    (h : c ∈ t.childrenList) : c ∈ t.subtrees := by
  rw [t.subtrees_def]
  exact List.mem_cons_of_mem _ (mem_subtreesList.mpr ⟨c, h, c.self_mem_subtrees⟩)

theorem FileSystemNode.subtrees_trans :
    ∀ t : FileSystemNode, ∀ {p x : FileSystemNode},
      p ∈ t.subtrees → x ∈ p.subtrees → x ∈ t.subtrees := by
  intro t
  induction t using FileSystemNode.ind with
  | h i co ih =>
    intro p x hp hx
    rw [(FileSystemNode.mk i co).subtrees_def] at hp ⊢
    rcases List.mem_cons.mp hp with h1 | h1
    · subst h1
      rw [(FileSystemNode.mk i co).subtrees_def] at hx
      exact hx
    · rcases mem_subtreesList.mp h1 with ⟨c, hc, hpc⟩
      exact List.mem_cons_of_mem _ (mem_subtreesList.mpr ⟨c, hc, ih c hc hpc hx⟩)

theorem FileSystemNode.childmem_subtrees_of_mem {t p c : FileSystemNode}
    (hp : p ∈ t.subtrees) (hc : c ∈ p.childrenList) : c ∈ t.subtrees :=
  subtrees_trans t hp (p.child_mem_subtrees hc)

theorem FileSystemNode.sizeOf_le_of_mem_subtrees :
    ∀ t : FileSystemNode, ∀ {x : FileSystemNode}, x ∈ t.subtrees → sizeOf x ≤ sizeOf t := by
  intro t
  induction t using FileSystemNode.ind with
  | h i co ih =>
    intro x hx
    rw [(FileSystemNode.mk i co).subtrees_def] at hx
    rcases List.mem_cons.mp hx with h1 | h1
    · exact le_of_eq (congrArg sizeOf h1)
    · rcases mem_subtreesList.mp h1 with ⟨c, hc, hxc⟩
      have h2 := ih c hc hxc
      have h3 := FileSystemNode.sizeOf_lt_of_mem_childrenList hc
      omega

theorem FileSystemNode.mem_subtrees_iff {t x : FileSystemNode} :
    x ∈ t.subtrees ↔ x = t ∨ x ∈ t.properSubtrees := by
  rw [t.subtrees_def]; simp [properSubtrees]

theorem FileSystemNode.sizeOf_lt_of_mem_properSubtrees {t x : FileSystemNode}
    (h : x ∈ t.properSubtrees) : sizeOf x < sizeOf t := by
  rcases mem_subtreesList.mp h with ⟨c, hc, hxc⟩
  exact lt_of_le_of_lt (sizeOf_le_of_mem_subtrees c hxc)
    (sizeOf_lt_of_mem_childrenList hc)

theorem FileSystemNode.not_self_mem_properSubtrees (t : FileSystemNode) :
    t ∉ t.properSubtrees := by
  intro h
  exact absurd (sizeOf_lt_of_mem_properSubtrees h) (lt_irrefl _)

theorem FileSystemNode.properSubtrees_sub_subtrees {t : FileSystemNode} :
    t.properSubtrees ⊆ t.subtrees := by
  intro x hx
  rw [t.subtrees_def]
  exact List.mem_cons_of_mem _ hx

/-- Child of a proper subtree is again a proper subtree. -/
theorem FileSystemNode.properSubtrees_child_closed {t p c : FileSystemNode}
    (hp : p ∈ t.properSubtrees) (hc : c ∈ p.childrenList) : c ∈ t.properSubtrees := by
  rcases mem_subtreesList.mp hp with ⟨c0, hc0, hpc0⟩
  exact mem_subtreesList.mpr ⟨c0, hc0, childmem_subtrees_of_mem hpc0 hc⟩

theorem FileSystemNode.child_mem_properSubtrees {t c : FileSystemNode}
    (hc : c ∈ t.childrenList) : c ∈ t.properSubtrees :=
  mem_subtreesList.mpr ⟨c, hc, c.self_mem_subtrees⟩

theorem FileSystemNode.properSubtrees_trans {t p x : FileSystemNode}
    (hp : p ∈ t.properSubtrees) (hx : x ∈ p.properSubtrees) : x ∈ t.properSubtrees := by
  rcases mem_subtreesList.mp hp with ⟨c0, hc0, hpc0⟩
  exact mem_subtreesList.mpr
    ⟨c0, hc0, subtrees_trans c0 hpc0 (properSubtrees_sub_subtrees hx)⟩

/-- Every element of `subtrees` that is not the root has a parent among the
subtrees. -/
theorem FileSystemNode.exists_parent :
    ∀ t : FileSystemNode, ∀ {x : FileSystemNode}, x ∈ t.subtrees →
      x = t ∨ ∃ p ∈ t.subtrees, x ∈ p.childrenList := by
  intro t
  induction t using FileSystemNode.ind with
  | h i co ih =>
    intro x hx
    rcases mem_subtrees_iff.mp hx with h1 | h1
    · exact Or.inl h1
    · rcases mem_subtreesList.mp h1 with ⟨c, hc, hxc⟩
      rcases ih c hc hxc with h2 | h2
      · refine Or.inr ⟨FileSystemNode.mk i co, self_mem_subtrees _, ?_⟩
        rw [h2]; exact hc
      · rcases h2 with ⟨p, hp, hxp⟩
        exact Or.inr ⟨p, subtrees_trans _ (child_mem_subtrees hc) hp, hxp⟩

theorem subtrees_sublist_of_mem_list {c : FileSystemNode} :
    ∀ {cs : List FileSystemNode}, c ∈ cs → c.subtrees.Sublist (subtreesList cs) := by
  intro cs h
  induction cs with
  | nil => cases h
  | cons t ts ih =>
    rcases List.mem_cons.mp h with h1 | h1
    · subst h1; exact (subtreesList_cons c ts) ▸ List.sublist_append_left _ _
    · exact ((ih h1).trans (List.sublist_append_right _ _))

theorem FileSystemNode.subtrees_sublist_of_mem :
    ∀ t : FileSystemNode, ∀ {x : FileSystemNode},
      x ∈ t.subtrees → x.subtrees.Sublist t.subtrees := by
  intro t
  induction t using FileSystemNode.ind with
  | h i co ih =>
    intro x hx
    rcases mem_subtrees_iff.mp hx with h1 | h1
    · exact h1 ▸ List.Sublist.refl _
    · rcases mem_subtreesList.mp h1 with ⟨c, hc, hxc⟩
      refine ((ih c hc hxc).trans (subtrees_sublist_of_mem_list hc)).trans ?_
      rw [(FileSystemNode.mk i co).subtrees_def]
      exact List.sublist_cons_self _ _

theorem FileSystemNode.allPaths_nodup_of_mem_subtrees {t x : FileSystemNode}
    (hnd : t.allPaths.Nodup) (hx : x ∈ t.subtrees) : x.allPaths.Nodup :=
  List.Nodup.sublist (List.Sublist.map _ (t.subtrees_sublist_of_mem hx)) hnd

theorem FileSystemNode.path_inj {t a b : FileSystemNode}
    (hnd : t.allPaths.Nodup) (ha : a ∈ t.subtrees) (hb : b ∈ t.subtrees)
    (hp : a.path = b.path) : a = b :=
  List.inj_on_of_nodup_map hnd ha hb hp

theorem FileSystemNode.self_path_mem_allPaths (t : FileSystemNode) :
    t.path ∈ t.allPaths :=
  List.mem_map.mpr ⟨t, t.self_mem_subtrees, rfl⟩

theorem subtreesList_eq_flatten (cs : List FileSystemNode) :
    subtreesList cs = (cs.map FileSystemNode.subtrees).flatten := by
  induction cs with
  | nil => rfl
  | cons t ts ih => simp [ih]

/-- Distinct paths of the whole tree give distinct paths among the children of
any subtree. -/
theorem FileSystemNode.childrenList_paths_nodup {t p : FileSystemNode}
    (hnd : t.allPaths.Nodup) (hp : p ∈ t.subtrees) :
    (p.childrenList.map (fun c => c.path)).Nodup := by
  have hndp : p.allPaths.Nodup := allPaths_nodup_of_mem_subtrees hnd hp
  rw [allPaths, p.subtrees_def] at hndp
  have htail : ((subtreesList p.childrenList).map (fun x => x.path)).Nodup :=
    (List.nodup_cons.mp (by simpa using hndp)).2
  rw [subtreesList_eq_flatten] at htail
  have htail2 : ((p.childrenList.map (fun c => c.allPaths)).flatten).Nodup := by
    rw [List.map_flatten, List.map_map] at htail
    simpa [FileSystemNode.allPaths, Function.comp] using htail
  have hpair := (List.nodup_flatten.mp htail2).2
  rw [List.pairwise_map] at hpair
  have hne : List.Pairwise (fun a b : FileSystemNode => a.path ≠ b.path) p.childrenList := by
    refine hpair.imp ?_
    intro a b hd heq
    exact hd a.self_path_mem_allPaths (by rw [heq]; exact b.self_path_mem_allPaths)
  exact List.pairwise_map.mpr hne

theorem FileSystemNode.mem_allPaths_iff {t : FileSystemNode} {q : String} :
    q ∈ t.allPaths ↔ ∃ x ∈ t.subtrees, x.path = q := by
  simp [allPaths]

/-- Nodup of the whole path list restricted to the concatenation of the
children's path blocks. -/
theorem FileSystemNode.children_allPaths_flatten_nodup {t : FileSystemNode}
    (hnd : t.allPaths.Nodup) :
    ((t.childrenList.map (fun c => c.allPaths)).flatten).Nodup := by
  rw [allPaths, t.subtrees_def] at hnd
  have htail : ((subtreesList t.childrenList).map (fun x => x.path)).Nodup :=
    (List.nodup_cons.mp (by simpa using hnd)).2
  rw [subtreesList_eq_flatten] at htail
  rw [List.map_flatten, List.map_map] at htail
  simpa [FileSystemNode.allPaths, Function.comp] using htail

/-- Path blocks of two distinct children are disjoint. -/
theorem FileSystemNode.children_blocks_disjoint {t a b : FileSystemNode}
    (hnd : t.allPaths.Nodup) (ha : a ∈ t.childrenList) (hb : b ∈ t.childrenList)
    (hab : a ≠ b) : a.allPaths.Disjoint b.allPaths := by
  have hpair := (List.nodup_flatten.mp (children_allPaths_flatten_nodup hnd)).2
  rw [List.pairwise_map] at hpair
  exact List.Pairwise.forall
    (fun x y (h : List.Disjoint _ _) => h.symm) hpair ha hb hab

/-- In a tree with distinct paths every node has at most one parent. -/
theorem FileSystemNode.parent_unique :
    ∀ t : FileSystemNode, t.allPaths.Nodup →
      ∀ {p1 p2 c : FileSystemNode}, p1 ∈ t.subtrees → p2 ∈ t.subtrees →
        c ∈ p1.childrenList → c ∈ p2.childrenList → p1 = p2 := by
  intro t
  induction t using FileSystemNode.ind with
  | h i co ih =>
    intro hnd p1 p2 c hp1 hp2 hc1 hc2
    set u := FileSystemNode.mk i co with hu
    have key : ∀ {p : FileSystemNode}, p ∈ u.properSubtrees → c ∈ p.childrenList →
        ∃ c0 ∈ u.childrenList, p ∈ c0.subtrees ∧ c ∈ c0.subtrees := by
      intro p hp hc
      rcases mem_subtreesList.mp hp with ⟨c0, hc0, hpc0⟩
      exact ⟨c0, hc0, hpc0, childmem_subtrees_of_mem hpc0 hc⟩
    rcases mem_subtrees_iff.mp hp1 with h1 | h1 <;>
      rcases mem_subtrees_iff.mp hp2 with h2 | h2
    · exact h1.trans h2.symm
    · exfalso
      subst h1
      rcases key h2 hc2 with ⟨c0, hc0, hp2c0, hcc0⟩
      by_cases hceq : c0 = c
      · have h3 : sizeOf p2 ≤ sizeOf c0 := sizeOf_le_of_mem_subtrees c0 hp2c0
        have h4 : sizeOf c < sizeOf p2 := sizeOf_lt_of_mem_childrenList hc2
        rw [hceq] at h3
        omega
      · have hd := children_blocks_disjoint hnd hc1 hc0 (fun h => hceq h.symm)
        exact hd c.self_path_mem_allPaths
          (mem_allPaths_iff.mpr ⟨c, hcc0, rfl⟩)
    · exfalso
      subst h2
      rcases key h1 hc1 with ⟨c0, hc0, hp1c0, hcc0⟩
      by_cases hceq : c0 = c
      · have h3 : sizeOf p1 ≤ sizeOf c0 := sizeOf_le_of_mem_subtrees c0 hp1c0
        have h4 : sizeOf c < sizeOf p1 := sizeOf_lt_of_mem_childrenList hc1
        rw [hceq] at h3
        omega
      · have hd := children_blocks_disjoint hnd hc2 hc0 (fun h => hceq h.symm)
        exact hd c.self_path_mem_allPaths
          (mem_allPaths_iff.mpr ⟨c, hcc0, rfl⟩)
    · rcases mem_subtreesList.mp h1 with ⟨c1, hc1m, hp1c1⟩
      rcases mem_subtreesList.mp h2 with ⟨c2, hc2m, hp2c2⟩
      by_cases hceq : c1 = c2
      · subst hceq
        exact ih c1 hc1m (allPaths_nodup_of_mem_subtrees hnd (child_mem_subtrees hc1m))
          hp1c1 hp2c2 hc1 hc2
      · exfalso
        have hd := children_blocks_disjoint hnd hc1m hc2m hceq
        exact hd (mem_allPaths_iff.mpr ⟨c, childmem_subtrees_of_mem hp1c1 hc1, rfl⟩)
          (mem_allPaths_iff.mpr ⟨c, childmem_subtrees_of_mem hp2c2 hc2, rfl⟩)

theorem specVisibleIds_def (e : String → Bool) (t : FileSystemNode) :
    specVisibleIds e t =
      t.path :: (if e t.path then specVisibleIdsList e t.childrenList else []) := by
  cases t with
  | mk i co =>
    cases co with
    | none =>
      simp [specVisibleIds, FileSystemNode.childrenList, FileSystemNode.childrenOpt,
        specVisibleIdsList]
    | some cs => simp [specVisibleIds, FileSystemNode.childrenList, FileSystemNode.childrenOpt]

@[simp] theorem specVisibleIdsList_nil (e : String → Bool) :
    specVisibleIdsList e [] = [] := rfl

@[simp] theorem specVisibleIdsList_cons (e : String → Bool) (t : FileSystemNode)
    (ts : List FileSystemNode) :
    specVisibleIdsList e (t :: ts) = specVisibleIds e t ++ specVisibleIdsList e ts := rfl

theorem mem_specVisibleIdsList {e : String → Bool} {q : String}
    {ts : List FileSystemNode} :
    q ∈ specVisibleIdsList e ts ↔ ∃ c ∈ ts, q ∈ specVisibleIds e c := by
  induction ts with
  | nil => simp
  | cons t ts ih => simp [ih]

theorem self_mem_specVisibleIds (e : String → Bool) (t : FileSystemNode) :
    t.path ∈ specVisibleIds e t := by
  rw [specVisibleIds_def]; exact List.mem_cons_self _ _

theorem specVisibleIds_subset_allPaths {e : String → Bool} {q : String} :
    ∀ t : FileSystemNode, q ∈ specVisibleIds e t → q ∈ t.allPaths := by
  intro t
  induction t using FileSystemNode.ind with
  | h i co ih =>
    intro hq
    rw [specVisibleIds_def] at hq
    rcases List.mem_cons.mp hq with h1 | h1
    · exact h1 ▸ FileSystemNode.self_path_mem_allPaths _
    · by_cases hg : e (FileSystemNode.mk i co).path
      · rw [if_pos hg] at h1
        rcases mem_specVisibleIdsList.mp h1 with ⟨c, hc, hqc⟩
        rcases FileSystemNode.mem_allPaths_iff.mp (ih c hc hqc) with ⟨x, hx, hxq⟩
        exact FileSystemNode.mem_allPaths_iff.mpr
          ⟨x, FileSystemNode.subtrees_trans _ (FileSystemNode.child_mem_subtrees hc) hx, hxq⟩
      · rw [if_neg hg] at h1; cases h1

theorem VisChain.mem_subtrees {e : String → Bool} {u x : FileSystemNode}
    (h : VisChain e u x) : x ∈ u.subtrees := by
  induction h with
  | refl => exact u.self_mem_subtrees
  | step hc hg hm ih => exact FileSystemNode.childmem_subtrees_of_mem ih hm

theorem VisChain.append {e : String → Bool} {u v x : FileSystemNode}
    (h1 : VisChain e u v) (h2 : VisChain e v x) : VisChain e u x := by
  induction h2 with
  | refl => exact h1
  | step hc hg hm ih => exact VisChain.step ih hg hm

theorem VisChain.mono {e e' : String → Bool} {u x : FileSystemNode}
    (hmono : ∀ q, e q = true → e' q = true) (h : VisChain e u x) : VisChain e' u x := by
  induction h with
  | refl => exact VisChain.refl
  | step hc hg hm ih => exact VisChain.step ih (hmono _ hg) hm

/-- Soundness half of the chain characterisation: every visible id is the
path of a subtree reachable by a disclosure chain. -/
theorem chain_of_mem_specVisibleIds {e : String → Bool} {q : String} :
    ∀ u : FileSystemNode, u.allPaths.Nodup → q ∈ specVisibleIds e u →
      ∃ x ∈ u.subtrees, x.path = q ∧ VisChain e u x := by
  intro u
  induction u using FileSystemNode.ind with
  | h i co ih =>
    intro hnd hq
    set u := FileSystemNode.mk i co with hu
    rw [specVisibleIds_def] at hq
    rcases List.mem_cons.mp hq with h1 | h1
    · exact ⟨u, u.self_mem_subtrees, h1.symm, VisChain.refl⟩
    · by_cases hg : e u.path
      · rw [if_pos hg] at h1
        rcases mem_specVisibleIdsList.mp h1 with ⟨c, hc, hqc⟩
        rcases ih c hc
          (FileSystemNode.allPaths_nodup_of_mem_subtrees hnd
            (FileSystemNode.child_mem_subtrees hc)) hqc with ⟨x, hx, hxq, hchain⟩
        refine ⟨x, FileSystemNode.subtrees_trans _ (FileSystemNode.child_mem_subtrees hc) hx,
          hxq, ?_⟩
        exact VisChain.append (VisChain.step VisChain.refl (by simpa using hg) hc) hchain
      · rw [if_neg hg] at h1; cases h1

/-- Completeness step: a visible, gated node spreads visibility to each of
its children. -/
theorem specVisibleIds_child_step {e : String → Bool} :
    ∀ u : FileSystemNode, u.allPaths.Nodup →
      ∀ {p c : FileSystemNode}, p ∈ u.subtrees → p.path ∈ specVisibleIds e u →
        e p.path = true → c ∈ p.childrenList → c.path ∈ specVisibleIds e u := by
  intro u
  induction u using FileSystemNode.ind with
  | h i co ih =>
    intro hnd p c hp hpv hg hc
    set u := FileSystemNode.mk i co with hu
    by_cases hpu : p = u
    · subst hpu
      rw [specVisibleIds_def]
      rw [if_pos (by simpa using hg)]
      exact List.mem_cons_of_mem _
        (mem_specVisibleIdsList.mpr ⟨c, hc, self_mem_specVisibleIds e c⟩)
    · rw [specVisibleIds_def] at hpv
      rcases List.mem_cons.mp hpv with h1 | h1
      · exact absurd (FileSystemNode.path_inj hnd hp u.self_mem_subtrees h1) hpu
      · by_cases hgu : e u.path
        · rw [if_pos hgu] at h1
          rcases mem_specVisibleIdsList.mp h1 with ⟨c1, hc1, hpc1⟩
          have hc1sub := FileSystemNode.child_mem_subtrees (t := u) hc1
          rcases FileSystemNode.mem_allPaths_iff.mp
            (specVisibleIds_subset_allPaths c1 hpc1) with ⟨x, hx, hxq⟩
          have hxp : x = p :=
            FileSystemNode.path_inj hnd
              (FileSystemNode.subtrees_trans _ hc1sub hx) hp hxq
          subst hxp
          have hcv : c.path ∈ specVisibleIds e c1 :=
            ih c1 hc1
              (FileSystemNode.allPaths_nodup_of_mem_subtrees hnd hc1sub)
              hx hpc1 hg hc
          rw [specVisibleIds_def]
          rw [if_pos (by simpa using hgu)]
          exact List.mem_cons_of_mem _ (mem_specVisibleIdsList.mpr ⟨c1, hc1, hcv⟩)
        · rw [if_neg hgu] at h1; cases h1

/-- Completeness half of the chain characterisation. -/
theorem mem_specVisibleIds_of_chain {e : String → Bool} {u x : FileSystemNode}
    (hnd : u.allPaths.Nodup) (h : VisChain e u x) :
    x.path ∈ specVisibleIds e u := by
  induction h with
  | refl => exact self_mem_specVisibleIds e u
  | step hc hg hm ih =>
    exact specVisibleIds_child_step u hnd hc.mem_subtrees ih hg hm

/-- A disclosure chain that ends strictly below `p` passes through `p` and
uses its gate. -/
theorem VisChain.gate_of_properSubtree {e : String → Bool} {u x p : FileSystemNode}
    (hnd : u.allPaths.Nodup) (h : VisChain e u x) (hp : p ∈ u.subtrees)
    (hx : x ∈ p.properSubtrees) : e p.path = true ∧ VisChain e u p := by
  induction h with
  | refl =>
    exfalso
    have h1 : sizeOf u < sizeOf p := FileSystemNode.sizeOf_lt_of_mem_properSubtrees hx
    have h2 : sizeOf p ≤ sizeOf u := FileSystemNode.sizeOf_le_of_mem_subtrees u hp
    omega
  | @step q c hcq hg hm ih =>
    by_cases hqp : q = p
    · subst hqp; exact ⟨hg, hcq⟩
    · rcases mem_subtreesList.mp hx with ⟨c0, hc0, hxc0⟩
      have hc0sub : c0 ∈ u.subtrees := FileSystemNode.childmem_subtrees_of_mem hp hc0
      rcases FileSystemNode.mem_subtrees_iff.mp hxc0 with hxeq | hxprop
      · exfalso
        apply hqp
        refine FileSystemNode.parent_unique u hnd hcq.mem_subtrees hp hm ?_
        rw [hxeq] at hm ⊢
        exact hc0
      · have hpar := FileSystemNode.exists_parent c0 (FileSystemNode.properSubtrees_sub_subtrees hxprop)
        rcases hpar with hxeq2 | ⟨pp, hpp, hxpp⟩
        · exact absurd (hxeq2 ▸ hxprop) (FileSystemNode.not_self_mem_properSubtrees c0)
        · have hppu : pp ∈ u.subtrees :=
            FileSystemNode.subtrees_trans _ hc0sub hpp
          have hqpp : q = pp :=
            FileSystemNode.parent_unique u hnd hcq.mem_subtrees hppu hm hxpp
          have hqprop : q ∈ p.properSubtrees :=
            mem_subtreesList.mpr ⟨c0, hc0, hqpp ▸ hpp⟩
          exact ih hqprop

theorem GraphState.mem_ids_iff {s : GraphState} {q : String} :
    q ∈ s.ids ↔ ∃ n ∈ s.nodes, n.id = q := by
  simp [GraphState.ids]

theorem Inv.node_unique {t : FileSystemNode} {s : GraphState} (h : Inv t s)
    {n m : GraphNode} (hn : n ∈ s.nodes) (hm : m ∈ s.nodes) (hid : n.id = m.id) :
    n = m :=
  List.inj_on_of_nodup_map h.nodup hn hm hid

theorem expandedGate_eq_true_iff {s : GraphState} {q : String} :
    expandedGate s q = true ↔ ∃ n ∈ s.nodes, n.id = q ∧ n.isExpanded = true := by
  simp [expandedGate, List.any_eq_true]

theorem mem_ids_of_expandedGate {s : GraphState} {q : String}
    (h : expandedGate s q = true) : q ∈ s.ids := by
  rcases expandedGate_eq_true_iff.mp h with ⟨n, hn, hq, _⟩
  exact GraphState.mem_ids_iff.mpr ⟨n, hn, hq⟩

theorem LinkReachN.trans {links : List GraphLink} {n m : Nat} {a b x : String}
    (h1 : LinkReachN links n a b) (h2 : LinkReachN links m b x) :
    LinkReachN links (n + m) a x := by
  induction h1 with
  | single hl =>
    rw [Nat.add_comm]
    exact LinkReachN.cons hl h2
  | cons hl hr ih =>
    rw [Nat.add_right_comm]
    exact LinkReachN.cons hl (ih h2)

theorem exists_reach_of_mem_findDescendants {links : List GraphLink} :
    ∀ {fuel : Nat} {a x : String}, x ∈ findDescendants links fuel a →
      ∃ n, 1 ≤ n ∧ LinkReachN links n a x := by
  intro fuel
  induction fuel with
  | zero => intro a x h; simp [findDescendants] at h
  | succ f ih =>
    intro a x h
    rw [findDescendants] at h
    rcases List.mem_flatMap.mp h with ⟨l, hl, hx⟩
    by_cases hs : l.source = a
    · subst hs
      rw [if_pos rfl] at hx
      rcases List.mem_cons.mp hx with h1 | h1
      · subst h1
        exact ⟨1, le_refl _, LinkReachN.single hl⟩
      · rcases ih h1 with ⟨n, hn, hr⟩
        exact ⟨n + 1, by omega, LinkReachN.cons hl hr⟩
    · rw [if_neg hs] at hx
      cases hx

theorem mem_findDescendants_of_reach {links : List GraphLink} :
    ∀ {n : Nat} {a x : String}, LinkReachN links n a x →
      ∀ {fuel : Nat}, n ≤ fuel → x ∈ findDescendants links fuel a := by
  intro n a x h
  induction h with
  | @single l hl =>
    intro fuel hle
    cases fuel with
    | zero => omega
    | succ f =>
      rw [findDescendants]
      exact List.mem_flatMap.mpr ⟨l, hl, by (rw [if_pos rfl]; exact List.mem_cons_self _ _)⟩
  | @cons l k x hl hr ih =>
    intro fuel hle
    cases fuel with
    | zero => omega
    | succ f =>
      rw [findDescendants]
      exact List.mem_flatMap.mpr ⟨l, hl, by
        rw [if_pos rfl]
        exact List.mem_cons_of_mem _ (ih (by omega))⟩

/-- A reachability chain along links whose targets strictly decrease a
measure uses pairwise distinct links, so its length is bounded by the
number of links. -/
theorem LinkReachN.length_le {links : List GraphLink} (m : String → Nat)
    (hm : ∀ l ∈ links, m l.target < m l.source) :
    ∀ {n : Nat} {a x : String}, LinkReachN links n a x → n ≤ links.length := by
  have key : ∀ {n : Nat} {a x : String}, LinkReachN links n a x →
      ∃ ll : List GraphLink, ll.length = n ∧ ll.Nodup ∧ (∀ l ∈ ll, l ∈ links) ∧
        ∀ l ∈ ll, m l.source ≤ m a := by
    intro n a x h
    induction h with
    | @single l hl =>
      exact ⟨[l], rfl, List.nodup_singleton l, by simp [hl], by simp⟩
    | @cons l k x hl hr ih =>
      rcases ih with ⟨ll, hlen, hnd, hsub, hbound⟩
      refine ⟨l :: ll, by simp [hlen], ?_, ?_, ?_⟩
      · rw [List.nodup_cons]
        refine ⟨fun hmem => ?_, hnd⟩
        have h1 := hbound l hmem
        have h2 := hm l hl
        omega
      · intro l2 hl2
        rcases List.mem_cons.mp hl2 with h1 | h1
        · exact h1 ▸ hl
        · exact hsub l2 h1
      · intro l2 hl2
        rcases List.mem_cons.mp hl2 with h1 | h1
        · exact le_of_eq (congrArg (fun l3 => m l3.source) h1)
        · exact le_trans (hbound l2 h1) (le_of_lt (hm l hl))
  intro n a x h
  rcases key h with ⟨ll, hlen, hnd, hsub, _⟩
  have h2 := List.Subperm.length_le (List.subperm_of_subset hnd (fun l hl => hsub l hl))
  omega

theorem pathNode_eq_some {t x : FileSystemNode} (hnd : t.allPaths.Nodup)
    (hx : x ∈ t.subtrees) : pathNode t x.path = some x := by
  cases h : pathNode t x.path with
  | none =>
    rw [pathNode, List.find?_eq_none] at h
    exact absurd (by simp : (x.path == x.path) = true) (h x hx)
  | some y =>
    rw [pathNode] at h
    have h1 := List.find?_some h
    simp only [beq_iff_eq] at h1
    have h2 : y ∈ t.subtrees := List.mem_of_find?_eq_some h
    rw [FileSystemNode.path_inj hnd h2 hx h1]

theorem Inv.link_measure {t : FileSystemNode} {s : GraphState}
    (hnd : t.allPaths.Nodup) (hInv : Inv t s) :
    ∀ l ∈ s.links, (pathNode t l.target).elim 0 sizeOf <
      (pathNode t l.source).elim 0 sizeOf := by
  intro l hl
  rcases hInv.link_mem l hl with ⟨_, p, c, hp, hc, hsrc, htgt, _, _⟩
  have hcsub : c ∈ t.subtrees := FileSystemNode.childmem_subtrees_of_mem hp hc
  rw [hsrc, htgt, pathNode_eq_some hnd hp, pathNode_eq_some hnd hcsub]
  simpa using FileSystemNode.sizeOf_lt_of_mem_childrenList hc

/-- Sound direction: a link-reachability chain starting at a visible tree
node ends at a visible strict tree descendant of it. -/
theorem Inv.reach_target {t : FileSystemNode} {s : GraphState}
    (hnd : t.allPaths.Nodup) (hInv : Inv t s) :
    ∀ {n : Nat} {a x : String}, LinkReachN s.links n a x →
      ∀ {pt : FileSystemNode}, pt ∈ t.subtrees → pt.path = a →
        x ∈ s.ids ∧ ∃ xt ∈ t.subtrees, xt.path = x ∧ xt ∈ pt.properSubtrees := by
  intro n a x h
  induction h with
  | @single l hl =>
    intro pt hpt hpa
    rcases hInv.link_mem l hl with ⟨_, p, c, hp, hc, hsrc, htgt, _, htv⟩
    have hptp : pt = p := FileSystemNode.path_inj hnd hpt hp (by rw [hpa, hsrc])
    subst hptp
    exact ⟨htgt ▸ htv, c, FileSystemNode.childmem_subtrees_of_mem hp hc, htgt.symm,
      FileSystemNode.child_mem_properSubtrees hc⟩
  | @cons l k x hl hr ih =>
    intro pt hpt hpa
    rcases hInv.link_mem l hl with ⟨_, p, c, hp, hc, hsrc, htgt, _, _⟩
    have hptp : pt = p := FileSystemNode.path_inj hnd hpt hp (by rw [hpa, hsrc])
    subst hptp
    have hcsub : c ∈ t.subtrees := FileSystemNode.childmem_subtrees_of_mem hp hc
    rcases ih hcsub htgt.symm with ⟨hxv, xt, hxt, hxp, hxdesc⟩
    exact ⟨hxv, xt, hxt, hxp,
      FileSystemNode.properSubtrees_trans (FileSystemNode.child_mem_properSubtrees hc) hxdesc⟩

/-- Complete direction: every visible strict tree descendant of a visible
node is link-reachable from it. -/
theorem Inv.reach_of_visible_desc {t : FileSystemNode} {s : GraphState}
    (hnd : t.allPaths.Nodup) (hInv : Inv t s) :
    ∀ pt : FileSystemNode, pt ∈ t.subtrees → pt.path ∈ s.ids →
      ∀ xt : FileSystemNode, xt ∈ pt.properSubtrees → xt.path ∈ s.ids →
        ∃ n, 1 ≤ n ∧ LinkReachN s.links n pt.path xt.path := by
  intro pt
  induction pt using FileSystemNode.ind with
  | h i co ihc =>
    intro hpt hvis xt hdesc hxvis
    set pt := FileSystemNode.mk i co with hptdef
    rcases mem_subtreesList.mp hdesc with ⟨c0, hc0, hxtc0⟩
    have hc0sub : c0 ∈ t.subtrees := FileSystemNode.childmem_subtrees_of_mem hpt hc0
    rcases FileSystemNode.mem_subtrees_iff.mp hxtc0 with hxeq | hxprop
    · subst hxeq
      have hlink := hInv.link_complete pt xt hpt hc0 hvis hxvis
      exact ⟨1, le_refl _, LinkReachN.single hlink⟩
    · have hxtsub : xt ∈ t.subtrees :=
        FileSystemNode.subtrees_trans _ hc0sub (FileSystemNode.properSubtrees_sub_subtrees hxprop)
      have hc0vis : c0.path ∈ s.ids := by
        rcases chain_of_mem_specVisibleIds t hnd ((hInv.vis xt.path).mp hxvis) with
          ⟨x2, hx2, hx2p, hchain⟩
        have hx2xt : x2 = xt := FileSystemNode.path_inj hnd hx2 hxtsub hx2p
        subst hx2xt
        have hg := VisChain.gate_of_properSubtree hnd hchain hc0sub hxprop
        exact (hInv.vis c0.path).mpr (mem_specVisibleIds_of_chain hnd hg.2)
      have hlink := hInv.link_complete pt c0 hpt hc0 hvis hc0vis
      rcases ihc c0 hc0 hc0sub hc0vis xt hxprop hxvis with ⟨n, hn, hr⟩
      exact ⟨1 + n, by omega, LinkReachN.trans (LinkReachN.single hlink) hr⟩

/-- The descendant set computed by `toggleFolder`'s `findDescendants` is
exactly the set of currently visible strict tree descendants of the node. -/
theorem Inv.mem_findDescendants_iff {t : FileSystemNode} {s : GraphState}
    (hnd : t.allPaths.Nodup) (hInv : Inv t s) {p : GraphNode}
    (hp : p ∈ s.nodes) {x : String} :
    x ∈ findDescendants s.links s.links.length p.id ↔
      x ∈ s.ids ∧ ∃ xt ∈ t.subtrees, xt.path = x ∧ xt ∈ p.data.properSubtrees := by
  have hpid : p.id = p.data.path := hInv.id_eq p hp
  have hpsub : p.data ∈ t.subtrees := hInv.data_mem p hp
  constructor
  · intro h
    rcases exists_reach_of_mem_findDescendants h with ⟨n, hn, hr⟩
    exact hInv.reach_target hnd hr hpsub hpid.symm
  · rintro ⟨hxv, xt, hxt, hxp, hxdesc⟩
    have hpvis : p.id ∈ s.ids := GraphState.mem_ids_iff.mpr ⟨p, hp, rfl⟩
    rcases hInv.reach_of_visible_desc hnd p.data hpsub (hpid ▸ hpvis) xt hxdesc
      (hxp ▸ hxv) with ⟨n, hn, hr⟩
    rw [hpid]
    rw [← hxp]
    exact mem_findDescendants_of_reach hr
      (LinkReachN.length_le (fun q => (pathNode t q).elim 0 sizeOf)
        (hInv.link_measure hnd) hr)

@[simp] theorem setExpanded_id (pid : String) (b : Bool) (n : GraphNode) :
    (setExpanded pid b n).id = n.id := by
  rw [setExpanded]; split <;> rfl

@[simp] theorem setExpanded_data (pid : String) (b : Bool) (n : GraphNode) :
    (setExpanded pid b n).data = n.data := by
  rw [setExpanded]; split <;> rfl

theorem setExpanded_of_ne {pid : String} {b : Bool} {n : GraphNode}
    (h : ¬ n.id = pid) : setExpanded pid b n = n := by
  rw [setExpanded, if_neg h]

theorem setExpanded_isExpanded_of_eq {pid : String} {b : Bool} {n : GraphNode}
    (h : n.id = pid) : (setExpanded pid b n).isExpanded = b := by
  rw [setExpanded, if_pos h]

theorem ids_map_setExpanded (ns : List GraphNode) (pid : String) (b : Bool) :
    (ns.map (setExpanded pid b)).map (fun n => n.id) = ns.map (fun n => n.id) := by
  rw [List.map_map]
  exact List.map_congr_left (fun n _ => setExpanded_id pid b n)

theorem mem_map_setExpanded_iff {ns : List GraphNode} {pid : String} {b : Bool}
    {n : GraphNode} :
    n ∈ ns.map (setExpanded pid b) ↔ ∃ m ∈ ns, n = setExpanded pid b m := by
  simp [List.mem_map, eq_comm]

/-- Ids after expanding: the old ids followed by the children's paths. -/
theorem ids_expandNode (s : GraphState) (p : GraphNode) (jitter : String → Int × Int) :
    (expandNode s p jitter).ids =
      s.ids ++ p.data.childrenList.map (fun c => c.path) := by
  rw [expandNode, GraphState.ids, GraphState.ids]
  simp only [List.map_append]
  rw [ids_map_setExpanded]
  congr 1
  rw [List.map_map]
  exact List.map_congr_left (fun c _ => rfl)

/-- Gate after expanding, pointwise: the toggled id becomes gated, everything
else is unchanged (the fresh children are collapsed, and none of them shares
an id with an existing node). -/
theorem expandedGate_expandNode {s : GraphState} {p : GraphNode}
    (jitter : String → Int × Int) (hp : p ∈ s.nodes) (q : String) :
    expandedGate (expandNode s p jitter) q =
      (if q = p.id then true else expandedGate s q) := by
  rw [Bool.eq_iff_iff]
  rw [expandedGate_eq_true_iff]
  constructor
  · rintro ⟨n, hn, hnq, hne⟩
    rw [expandNode] at hn
    simp only [List.mem_append, List.mem_map] at hn
    rcases hn with ⟨m, hm, hmn⟩ | ⟨c, hc, hcn⟩
    · subst hmn
      by_cases hmp : m.id = p.id
      · have hqe : q = p.id := by rw [← hnq, setExpanded_id, hmp]
        rw [if_pos hqe]
      · rw [setExpanded_of_ne hmp] at hnq hne
        have hqne : ¬ q = p.id := by rw [← hnq]; exact hmp
        rw [if_neg hqne]
        exact expandedGate_eq_true_iff.mpr ⟨m, hm, hnq, hne⟩
    · exfalso
      rw [← hcn] at hne
      simp at hne
  · intro h
    by_cases hq : q = p.id
    · refine ⟨setExpanded p.id true p, ?_, ?_, ?_⟩
      · rw [expandNode]
        simp only [List.mem_append, List.mem_map]
        exact Or.inl ⟨p, hp, rfl⟩
      · rw [setExpanded_id, hq]
      · exact setExpanded_isExpanded_of_eq rfl
    · rw [if_neg hq] at h
      rcases expandedGate_eq_true_iff.mp h with ⟨m, hm, hmq, hme⟩
      have hmp : ¬ m.id = p.id := by rw [hmq]; exact hq
      refine ⟨m, ?_, hmq, hme⟩
      rw [expandNode]
      simp only [List.mem_append, List.mem_map]
      exact Or.inl ⟨m, hm, (setExpanded_of_ne hmp).symm ▸ rfl⟩

theorem map_id_filter_pred (ns : List GraphNode) (p : String → Bool) :
    (ns.filter (fun n => p n.id)).map (fun n => n.id) =
      (ns.map (fun n => n.id)).filter p := by
  induction ns with
  | nil => rfl
  | cons n ns ih =>
    rw [List.filter_cons, List.map_cons, List.filter_cons]
    by_cases h : p n.id = true
    · rw [if_pos h, if_pos h, List.map_cons, ih]
    · rw [if_neg h, if_neg h, ih]

theorem ids_filter_contains (ns : List GraphNode) (d : List String) :
    (ns.filter (fun n => !(d.contains n.id))).map (fun n => n.id) =
      (ns.map (fun n => n.id)).filter (fun q => !(d.contains q)) :=
  map_id_filter_pred ns (fun q => !(d.contains q))

/-- Ids after collapsing: the old ids minus the computed descendant set. -/
theorem ids_collapseNode (s : GraphState) (pid : String) :
    (collapseNode s pid).ids =
      s.ids.filter
        (fun q => !((findDescendants s.links s.links.length pid).contains q)) := by
  rw [collapseNode, GraphState.ids]
  rw [ids_filter_contains]
  rw [ids_map_setExpanded]
  rfl

theorem mem_ids_collapseNode {s : GraphState} {pid q : String} :
    q ∈ (collapseNode s pid).ids ↔
      q ∈ s.ids ∧ q ∉ findDescendants s.links s.links.length pid := by
  rw [ids_collapseNode, List.mem_filter]
  simp

/-- Gate after collapsing, pointwise: descendants lose their gate with their
node, the collapsed node's gate is cleared, everything else is unchanged. -/
theorem expandedGate_collapseNode {t : FileSystemNode} {s : GraphState}
    (hInv : Inv t s) {p : GraphNode} (hp : p ∈ s.nodes) (q : String) :
    expandedGate (collapseNode s p.id) q =
      (if q ∈ findDescendants s.links s.links.length p.id then false
       else if q = p.id then false
       else expandedGate s q) := by
  rw [Bool.eq_iff_iff]
  rw [expandedGate_eq_true_iff]
  constructor
  · rintro ⟨n, hn, hnq, hne⟩
    rw [collapseNode] at hn
    simp only [List.mem_filter, mem_map_setExpanded_iff] at hn
    rcases hn with ⟨⟨m, hm, hmn⟩, hkeep⟩
    subst hmn
    rw [setExpanded_id] at hnq
    subst hnq
    rw [setExpanded_id] at hkeep
    simp at hkeep
    rw [if_neg hkeep]
    by_cases hmp : m.id = p.id
    · rw [setExpanded_isExpanded_of_eq hmp] at hne
      cases hne
    · rw [setExpanded_of_ne hmp] at hne
      rw [if_neg hmp]
      exact expandedGate_eq_true_iff.mpr ⟨m, hm, rfl, hne⟩
  · intro h
    by_cases hd : q ∈ findDescendants s.links s.links.length p.id
    · rw [if_pos hd] at h
      cases h
    · rw [if_neg hd] at h
      by_cases hqp : q = p.id
      · rw [if_pos hqp] at h
        cases h
      · rw [if_neg hqp] at h
        rcases expandedGate_eq_true_iff.mp h with ⟨m, hm, hmq, hme⟩
        have hmp : ¬ m.id = p.id := by rw [hmq]; exact hqp
        refine ⟨m, ?_, hmq, hme⟩
        rw [collapseNode]
        simp only [List.mem_filter, mem_map_setExpanded_iff]
        constructor
        · exact ⟨m, hm, (setExpanded_of_ne hmp).symm⟩
        · simp [hmq, hd]

theorem Inv.gate_false_of_not_expanded {t : FileSystemNode} {s : GraphState}
    (hInv : Inv t s) {p : GraphNode} (hp : p ∈ s.nodes)
    (hpe : p.isExpanded = false) : expandedGate s p.id = false := by
  rw [Bool.eq_false_iff]
  intro hg
  rcases expandedGate_eq_true_iff.mp hg with ⟨m, hm, hmq, hme⟩
  rw [hInv.node_unique hm hp hmq] at hme
  rw [hpe] at hme
  cases hme

/-- No child of a collapsed visible node is visible. -/
theorem Inv.children_not_visible {t : FileSystemNode} {s : GraphState}
    (hnd : t.allPaths.Nodup) (hInv : Inv t s) {p : GraphNode}
    (hp : p ∈ s.nodes) (hpe : p.isExpanded = false) :
    ∀ c ∈ p.data.childrenList, c.path ∉ s.ids := by
  intro c hc hvis
  have hgate := hInv.gate_false_of_not_expanded hp hpe
  rcases chain_of_mem_specVisibleIds t hnd ((hInv.vis c.path).mp hvis) with
    ⟨x, hx, hxp, hchain⟩
  have hptsub : p.data ∈ t.subtrees := hInv.data_mem p hp
  have hcsub : c ∈ t.subtrees := FileSystemNode.childmem_subtrees_of_mem hptsub hc
  have hxc : x = c := FileSystemNode.path_inj hnd hx hcsub hxp
  subst hxc
  have hg := VisChain.gate_of_properSubtree hnd hchain hptsub
    (FileSystemNode.child_mem_properSubtrees hc)
  rw [hInv.id_eq p hp] at hgate
  rw [hg.1] at hgate
  cases hgate

theorem Inv.root_visible {t : FileSystemNode} {s : GraphState} (hInv : Inv t s) :
    t.path ∈ s.ids :=
  (hInv.vis t.path).mpr (self_mem_specVisibleIds _ t)

/-- The expand branch preserves the coupling invariant. -/
theorem Inv.expand {t : FileSystemNode} {s : GraphState}
    (hnd : t.allPaths.Nodup) (hInv : Inv t s) {p : GraphNode}
    (hp : p ∈ s.nodes) (hpe : p.isExpanded = false)
    (jitter : String → Int × Int) :
    Inv t (expandNode s p jitter) := by
  have hptsub : p.data ∈ t.subtrees := hInv.data_mem p hp
  have hpid : p.id = p.data.path := hInv.id_eq p hp
  have hpvis : p.id ∈ s.ids := GraphState.mem_ids_iff.mpr ⟨p, hp, rfl⟩
  have hchildnv := hInv.children_not_visible hnd hp hpe
  have hgate := expandedGate_expandNode jitter hp
  have hids := ids_expandNode s p jitter
  have hmono : ∀ r, expandedGate s r = true →
      expandedGate (expandNode s p jitter) r = true := by
    intro r hr
    rw [hgate r]
    by_cases h : r = p.id
    · rw [if_pos h]
    · rw [if_neg h]; exact hr
  have hptpath : p.data.path ≠ p.id → False := fun h => h hpid.symm
  -- a disclosure chain for the expanded gate ends in an old node or a child
  have haux : ∀ x : FileSystemNode,
      VisChain (expandedGate (expandNode s p jitter)) t x →
      x.path ∈ s.ids ∨ ∃ c ∈ p.data.childrenList, x.path = c.path := by
    intro x hch
    induction hch with
    | refl => exact Or.inl hInv.root_visible
    | @step qn c2 hcq hg hm ih =>
      rcases ih with hql | ⟨c0, hc0, hqc0⟩
      · by_cases hqp : qn.path = p.id
        · have hqnpt : qn = p.data :=
            FileSystemNode.path_inj hnd hcq.mem_subtrees hptsub (by rw [hqp, hpid])
          exact Or.inr ⟨c2, hqnpt ▸ hm, rfl⟩
        · rw [hgate qn.path, if_neg hqp] at hg
          exact Or.inl ((hInv.vis c2.path).mpr
            (specVisibleIds_child_step t hnd hcq.mem_subtrees
              ((hInv.vis qn.path).mp hql) hg hm))
      · exfalso
        have hc0sub : c0 ∈ t.subtrees :=
          FileSystemNode.childmem_subtrees_of_mem hptsub hc0
        have hqnc0 : qn = c0 :=
          FileSystemNode.path_inj hnd hcq.mem_subtrees hc0sub hqc0
        have hc0ne : ¬ c0.path = p.id := by
          intro h
          have : c0 = p.data :=
            FileSystemNode.path_inj hnd hc0sub hptsub (by rw [h, hpid])
          have h1 := FileSystemNode.sizeOf_lt_of_mem_childrenList hc0
          rw [this] at h1
          omega
        rw [hqnc0, hgate c0.path, if_neg hc0ne] at hg
        exact hchildnv c0 hc0 (mem_ids_of_expandedGate hg)
  refine ⟨?_, ?_, ?_, ?_, ?_, ?_⟩
  · -- nodup
    rw [show (expandNode s p jitter).ids =
      s.ids ++ p.data.childrenList.map (fun c => c.path) from hids]
    rw [List.nodup_append]
    refine ⟨hInv.nodup, FileSystemNode.childrenList_paths_nodup hnd hptsub, ?_⟩
    intro q hq hq2
    rcases List.mem_map.mp hq2 with ⟨c, hc, hcq⟩
    exact hchildnv c hc (hcq ▸ hq)
  · -- data_mem
    intro n hn
    rw [expandNode] at hn
    simp only [List.mem_append, List.mem_map] at hn
    rcases hn with ⟨m, hm, hmn⟩ | ⟨c, hc, hcn⟩
    · rw [← hmn, setExpanded_data]
      exact hInv.data_mem m hm
    · rw [← hcn]
      exact FileSystemNode.childmem_subtrees_of_mem hptsub hc
  · -- id_eq
    intro n hn
    rw [expandNode] at hn
    simp only [List.mem_append, List.mem_map] at hn
    rcases hn with ⟨m, hm, hmn⟩ | ⟨c, hc, hcn⟩
    · rw [← hmn, setExpanded_data, setExpanded_id]
      exact hInv.id_eq m hm
    · rw [← hcn]
  · -- vis
    intro q
    constructor
    · intro hq
      rw [hids] at hq
      rcases List.mem_append.mp hq with hq1 | hq1
      · rcases chain_of_mem_specVisibleIds t hnd ((hInv.vis q).mp hq1) with
          ⟨x, hx, hxq, hchain⟩
        rw [← hxq]
        exact mem_specVisibleIds_of_chain hnd (hchain.mono hmono)
      · rcases List.mem_map.mp hq1 with ⟨c, hc, hcq⟩
        rcases chain_of_mem_specVisibleIds t hnd ((hInv.vis p.id).mp hpvis) with
          ⟨x, hx, hxq, hchain⟩
        have hxpt : x = p.data :=
          FileSystemNode.path_inj hnd hx hptsub (by rw [hxq, hpid])
        subst hxpt
        have hchain2 := hchain.mono hmono
        have hstep : VisChain (expandedGate (expandNode s p jitter)) t c :=
          VisChain.step hchain2 (by rw [← hpid, hgate p.id, if_pos rfl]) hc
        rw [← hcq]
        exact mem_specVisibleIds_of_chain hnd hstep
    · intro hq
      rcases chain_of_mem_specVisibleIds t hnd hq with ⟨x, hx, hxq, hchain⟩
      rw [hids, List.mem_append]
      rcases haux x hchain with h1 | ⟨c, hc, hxc⟩
      · exact Or.inl (hxq ▸ h1)
      · exact Or.inr (List.mem_map.mpr ⟨c, hc, by rw [← hxq, hxc]⟩)
  · -- link_mem
    intro l hl
    rw [expandNode] at hl
    rcases List.mem_append.mp hl with hl1 | hl1
    · rcases hInv.link_mem l hl1 with ⟨hv, pt2, c2, hpt2, hc2, hs2, ht2, hsv, htv⟩
      refine ⟨hv, pt2, c2, hpt2, hc2, hs2, ht2, ?_, ?_⟩
      · rw [hids, List.mem_append]; exact Or.inl hsv
      · rw [hids, List.mem_append]; exact Or.inl htv
    · rw [List.map_map] at hl1
      rcases List.mem_map.mp hl1 with ⟨c, hc, hcl⟩
      refine ⟨by rw [← hcl]; rfl, p.data, c, hptsub, hc,
        by rw [← hcl]; exact hpid, by rw [← hcl]; rfl, ?_, ?_⟩
      · rw [← hcl, hids, List.mem_append]
        exact Or.inl hpvis
      · rw [← hcl, hids, List.mem_append]
        exact Or.inr (List.mem_map.mpr ⟨c, hc, rfl⟩)
  · -- link_complete
    intro p2 c2 hp2 hc2 hp2v hc2v
    rw [hids, List.mem_append] at hp2v hc2v
    have hc2sub : c2 ∈ t.subtrees := FileSystemNode.childmem_subtrees_of_mem hp2 hc2
    rcases hc2v with hc2v | hc2v
    · rcases hp2v with hp2v | hp2v
      · have hl := hInv.link_complete p2 c2 hp2 hc2 hp2v hc2v
        rw [expandNode]
        exact List.mem_append.mpr (Or.inl hl)
      · exfalso
        rcases List.mem_map.mp hp2v with ⟨c0, hc0, hc0q⟩
        have hc0sub : c0 ∈ t.subtrees :=
          FileSystemNode.childmem_subtrees_of_mem hptsub hc0
        have hp2c0 : p2 = c0 :=
          FileSystemNode.path_inj hnd hp2 hc0sub hc0q.symm
        subst hp2c0
        rcases chain_of_mem_specVisibleIds t hnd ((hInv.vis c2.path).mp hc2v) with
          ⟨x, hx, hxq, hchain⟩
        have hxc2 : x = c2 := FileSystemNode.path_inj hnd hx hc2sub hxq
        rw [hxc2] at hchain
        have hdesc : c2 ∈ p.data.properSubtrees :=
          FileSystemNode.properSubtrees_trans
            (FileSystemNode.child_mem_properSubtrees hc0)
            (FileSystemNode.child_mem_properSubtrees hc2)
        have hg := VisChain.gate_of_properSubtree hnd hchain hptsub hdesc
        have hgf := hInv.gate_false_of_not_expanded hp hpe
        rw [hpid] at hgf
        rw [hg.1] at hgf
        cases hgf
    · rcases List.mem_map.mp hc2v with ⟨c0, hc0, hc0q⟩
      have hc0sub : c0 ∈ t.subtrees :=
        FileSystemNode.childmem_subtrees_of_mem hptsub hc0
      have hc2c0 : c2 = c0 := FileSystemNode.path_inj hnd hc2sub hc0sub hc0q.symm
      have hp2pt : p2 = p.data :=
        FileSystemNode.parent_unique t hnd hp2 hptsub hc2 (by rw [hc2c0]; exact hc0)
      rw [hp2pt, hc2c0, expandNode]
      refine List.mem_append.mpr (Or.inr ?_)
      rw [List.map_map]
      refine List.mem_map.mpr ⟨c0, hc0, ?_⟩
      rw [← hpid]
      rfl

/-- The collapse branch preserves the coupling invariant. -/
theorem Inv.collapse {t : FileSystemNode} {s : GraphState}
    (hnd : t.allPaths.Nodup) (hInv : Inv t s) {p : GraphNode}
    (hp : p ∈ s.nodes) :
    Inv t (collapseNode s p.id) := by
  have hptsub : p.data ∈ t.subtrees := hInv.data_mem p hp
  have hpid : p.id = p.data.path := hInv.id_eq p hp
  have hdiff := fun x => hInv.mem_findDescendants_iff hnd hp (x := x)
  have hpnotin : p.id ∉ findDescendants s.links s.links.length p.id := by
    intro hmem
    rcases (hdiff p.id).mp hmem with ⟨_, xt, hxt, hxtp, hxtdesc⟩
    have hxtpt : xt = p.data := FileSystemNode.path_inj hnd hxt hptsub (by rw [hxtp, hpid])
    rw [hxtpt] at hxtdesc
    exact FileSystemNode.not_self_mem_properSubtrees _ hxtdesc
  have hgate := expandedGate_collapseNode hInv hp
  have hmono : ∀ r, expandedGate (collapseNode s p.id) r = true →
      expandedGate s r = true := by
    intro r hr
    rw [hgate r] at hr
    by_cases h1 : r ∈ findDescendants s.links s.links.length p.id
    · rw [if_pos h1] at hr; cases hr
    · rw [if_neg h1] at hr
      by_cases h2 : r = p.id
      · rw [if_pos h2] at hr; cases hr
      · rw [if_neg h2] at hr; exact hr
  have haux : ∀ x : FileSystemNode, VisChain (expandedGate s) t x →
      x.path ∉ findDescendants s.links s.links.length p.id →
      VisChain (expandedGate (collapseNode s p.id)) t x := by
    intro x hch
    induction hch with
    | refl => intro _; exact VisChain.refl
    | @step qn c2 hcq hg hm ih =>
      intro hnotin
      have hc2vis : c2.path ∈ s.ids :=
        (hInv.vis c2.path).mpr
          (mem_specVisibleIds_of_chain hnd (VisChain.step hcq hg hm))
      have hc2sub : c2 ∈ t.subtrees :=
        FileSystemNode.childmem_subtrees_of_mem hcq.mem_subtrees hm
      have hqnotin : qn.path ∉ findDescendants s.links s.links.length p.id := by
        intro hqd
        rcases (hdiff qn.path).mp hqd with ⟨_, qt, hqt, hqtp, hqtdesc⟩
        have hqtqn : qt = qn := FileSystemNode.path_inj hnd hqt hcq.mem_subtrees hqtp
        rw [hqtqn] at hqtdesc
        exact hnotin ((hdiff c2.path).mpr
          ⟨hc2vis, c2, hc2sub, rfl,
            FileSystemNode.properSubtrees_child_closed hqtdesc hm⟩)
      have hqne : ¬ qn.path = p.id := by
        intro hqp
        have hqnpt : qn = p.data :=
          FileSystemNode.path_inj hnd hcq.mem_subtrees hptsub (by rw [hqp, hpid])
        exact hnotin ((hdiff c2.path).mpr
          ⟨hc2vis, c2, hc2sub, rfl,
            FileSystemNode.child_mem_properSubtrees (hqnpt ▸ hm)⟩)
      refine VisChain.step (ih hqnotin) ?_ hm
      rw [hgate qn.path, if_neg hqnotin, if_neg hqne]
      exact hg
  refine ⟨?_, ?_, ?_, ?_, ?_, ?_⟩
  · rw [ids_collapseNode]
    exact hInv.nodup.filter _
  · intro n hn
    rw [collapseNode] at hn
    rcases (List.mem_filter.mp hn) with ⟨hn1, _⟩
    rcases mem_map_setExpanded_iff.mp hn1 with ⟨m, hm, hmn⟩
    rw [hmn, setExpanded_data]
    exact hInv.data_mem m hm
  · intro n hn
    rw [collapseNode] at hn
    rcases (List.mem_filter.mp hn) with ⟨hn1, _⟩
    rcases mem_map_setExpanded_iff.mp hn1 with ⟨m, hm, hmn⟩
    rw [hmn, setExpanded_data, setExpanded_id]
    exact hInv.id_eq m hm
  · intro q
    rw [mem_ids_collapseNode]
    constructor
    · rintro ⟨hq, hqd⟩
      rcases chain_of_mem_specVisibleIds t hnd ((hInv.vis q).mp hq) with
        ⟨x, hx, hxq, hchain⟩
      rw [← hxq]
      exact mem_specVisibleIds_of_chain hnd (haux x hchain (hxq.symm ▸ hqd))
    · intro hq
      rcases chain_of_mem_specVisibleIds t hnd hq with ⟨x, hx, hxq, hchain⟩
      have hqv : q ∈ s.ids := by
        rw [← hxq]
        exact (hInv.vis x.path).mpr
          (mem_specVisibleIds_of_chain hnd (hchain.mono hmono))
      refine ⟨hqv, fun hqd => ?_⟩
      rcases (hdiff q).mp hqd with ⟨_, xt, hxt, hxtp, hxtdesc⟩
      have hxxt : x = xt := FileSystemNode.path_inj hnd hx hxt (by rw [hxq, hxtp])
      rw [hxxt] at hchain
      have hg := VisChain.gate_of_properSubtree hnd hchain hptsub hxtdesc
      have hgfalse : expandedGate (collapseNode s p.id) p.id = false := by
        rw [hgate p.id, if_neg hpnotin, if_pos rfl]
      have hgtrue := hg.1
      rw [← hpid] at hgtrue
      rw [hgtrue] at hgfalse
      cases hgfalse
  · intro l hl
    rw [collapseNode] at hl
    rcases List.mem_filter.mp hl with ⟨hl1, hcond⟩
    simp only [Bool.and_eq_true, Bool.not_eq_eq_eq_not, Bool.not_true] at hcond
    have hsrc : l.source ∉ findDescendants s.links s.links.length p.id := by
      have := hcond.1
      simpa using this
    have htgt : l.target ∉ findDescendants s.links s.links.length p.id := by
      have := hcond.2
      simpa using this
    rcases hInv.link_mem l hl1 with ⟨hv, pt2, c2, hpt2, hc2, hs2, ht2, hsv, htv⟩
    exact ⟨hv, pt2, c2, hpt2, hc2, hs2, ht2,
      mem_ids_collapseNode.mpr ⟨hsv, hsrc⟩, mem_ids_collapseNode.mpr ⟨htv, htgt⟩⟩
  · intro p2 c2 hp2 hc2 hp2v hc2v
    rw [mem_ids_collapseNode] at hp2v hc2v
    have hl := hInv.link_complete p2 c2 hp2 hc2 hp2v.1 hc2v.1
    rw [collapseNode]
    refine List.mem_filter.mpr ⟨hl, ?_⟩
    simp [hp2v.2, hc2v.2]

/-- The initial single-root state satisfies the invariant. -/
theorem Inv.init (t : FileSystemNode) (hnd : t.allPaths.Nodup) :
    Inv t (initState t) := by
  have hgate : ∀ q, expandedGate (initState t) q = false := by
    intro q
    simp [expandedGate, initState, rootNode]
  refine ⟨?_, ?_, ?_, ?_, ?_, ?_⟩
  · simp [GraphState.ids, initState]
  · intro n hn
    simp only [initState, List.mem_singleton] at hn
    rw [hn]
    exact t.self_mem_subtrees
  · intro n hn
    simp only [initState, List.mem_singleton] at hn
    rw [hn]
    rfl
  · intro q
    rw [specVisibleIds_def, hgate, if_neg (by simp)]
    simp [GraphState.ids, initState, rootNode, eq_comm]
  · intro l hl
    simp [initState] at hl
  · intro p c hp hc hpv hcv
    exfalso
    simp only [GraphState.ids, initState, List.map_cons, List.map_nil,
      List.mem_singleton] at hpv hcv
    have hcsub : c ∈ t.subtrees := FileSystemNode.childmem_subtrees_of_mem hp hc
    have hcp : c = p := FileSystemNode.path_inj hnd hcsub hp (by
      rw [show c.path = (rootNode t).id from hcv, show p.path = (rootNode t).id from hpv])
    have h1 := FileSystemNode.sizeOf_lt_of_mem_childrenList hc
    rw [hcp] at h1
    omega

/-- `toggleFolder` preserves the coupling invariant. -/
theorem Inv.toggle {t : FileSystemNode} {u : UIState}
    (hnd : t.allPaths.Nodup) (hInv : Inv t u.graph) (nid : String)
    (jitter : String → Int × Int) :
    Inv t (toggleFolder u nid jitter).graph := by
  cases hfind : u.graph.nodes.find? (fun n => n.id == nid) with
  | none =>
    simp only [toggleFolder, hfind]
    exact hInv
  | some p =>
    have hp : p ∈ u.graph.nodes := List.mem_of_find?_eq_some hfind
    simp only [toggleFolder, hfind]
    by_cases hpe : p.isExpanded
    · rw [if_pos hpe]
      exact Inv.collapse hnd hInv hp
    · rw [if_neg hpe]
      cases p.data.childrenOpt with
      | none => exact hInv
      | some cs =>
        exact Inv.expand hnd hInv hp (Bool.eq_false_iff.mpr hpe) jitter

/-- Every state reachable by expand/collapse operations satisfies the
invariant. -/
theorem Inv.applyOps {t : FileSystemNode} (hnd : t.allPaths.Nodup) :
    ∀ (ops : List (String × (String → Int × Int))) (u : UIState),
      Inv t u.graph → Inv t (applyOps u ops).graph := by
  intro ops
  induction ops with
  | nil => intro u h; exact h
  | cons op ops ih =>
    intro u h
    exact ih (toggleFolder u op.1 op.2) (Inv.toggle hnd h op.1 op.2)

theorem find?_eq_some_of_unique {α : Type} {p : α → Bool} {l : List α} {x : α}
    (hx : x ∈ l) (hpx : p x = true) (huniq : ∀ y ∈ l, p y = true → y = x) :
    l.find? p = some x := by
  induction l with
  | nil => cases hx
  | cons a l ih =>
    by_cases hpa : p a = true
    · rw [List.find?_cons_of_pos _ hpa]
      rw [huniq a (List.mem_cons_self _ _) hpa]
    · rw [List.find?_cons_of_neg _ hpa]
      rcases List.mem_cons.mp hx with h1 | h1
      · rw [← h1] at hpa; exact absurd hpx hpa
      · exact ih h1 (fun y hy hpy => huniq y (List.mem_cons_of_mem _ hy) hpy)

/-- Under the invariant, the `find?` of `toggleFolder` returns exactly the
node carrying the clicked id. -/
theorem Inv.find?_self {t : FileSystemNode} {s : GraphState} (hInv : Inv t s)
    {n : GraphNode} (hn : n ∈ s.nodes) :
    s.nodes.find? (fun m => m.id == n.id) = some n :=
  find?_eq_some_of_unique hn (by simp)
    (fun y hy hpy => hInv.node_unique hy hn (by simpa using hpy))

theorem toggleFolder_expand_eq {u : UIState} {nid : String}
    {jitter : String → Int × Int} {p : GraphNode} {cs : List FileSystemNode}
    (hfind : u.graph.nodes.find? (fun n => n.id == nid) = some p)
    (hpe : p.isExpanded = false) (hcs : p.data.childrenOpt = some cs) :
    toggleFolder u nid jitter =
      { u with graph := expandNode u.graph p jitter, focusNodeId := some p.id } := by
  simp only [toggleFolder, hfind, hpe, hcs]
  rw [if_neg (by simp)]

theorem toggleFolder_collapse_eq {u : UIState} {nid : String}
    {jitter : String → Int × Int} {p : GraphNode}
    (hfind : u.graph.nodes.find? (fun n => n.id == nid) = some p)
    (hpe : p.isExpanded = true) :
    toggleFolder u nid jitter =
      { u with graph := collapseNode u.graph p.id, focusNodeId := some p.id } := by
  simp only [toggleFolder, hfind, hpe, if_true]

theorem eq_singleton_of_nodup_of_mem_iff {l : List String} {a : String}
    (hnd : l.Nodup) (h : ∀ q, q ∈ l ↔ q = a) : l = [a] := by
  cases l with
  | nil => exact absurd ((h a).mpr rfl) (List.not_mem_nil a)
  | cons b l2 =>
    have hba : b = a := (h b).mp (List.mem_cons_self _ _)
    subst hba
    cases l2 with
    | nil => rfl
    | cons c l3 =>
      have hcb : c = b := (h c).mp (List.mem_cons_of_mem _ (List.mem_cons_self _ _))
      rw [List.nodup_cons] at hnd
      exact absurd (hcb ▸ List.mem_cons_self c l3) hnd.1

theorem Inv.self_not_mem_findDescendants {t : FileSystemNode} {s : GraphState}
    (hnd : t.allPaths.Nodup) (hInv : Inv t s) {p : GraphNode} (hp : p ∈ s.nodes) :
    p.id ∉ findDescendants s.links s.links.length p.id := by
  intro hmem
  rcases (hInv.mem_findDescendants_iff hnd hp).mp hmem with ⟨_, xt, hxt, hxtp, hxtdesc⟩
  have hptsub : p.data ∈ t.subtrees := hInv.data_mem p hp
  have hxtpt : xt = p.data :=
    FileSystemNode.path_inj hnd hxt hptsub (by rw [hxtp, hInv.id_eq p hp])
  rw [hxtpt] at hxtdesc
  exact FileSystemNode.not_self_mem_properSubtrees _ hxtdesc

/-- C1: for every sequence of expand and collapse operations starting from
the initial single-root graph (and for every outcome of the random position
jitter), the set of visible GraphNodes equals the specified set — a node id
is in the `nodes` list iff it is the root's id or every ancestor on its path
from the root is currently expanded (`specVisibleIds` with the state's own
expansion gate).  The hypothesis is that tree paths (the ids) are distinct,
as they are for filesystem paths. -/
theorem c1_visible_iff_ancestors_expanded (t : FileSystemNode)
    (hnd : t.allPaths.Nodup)
    (ops : List (String × (String → Int × Int))) :
    ∀ q : String,
      (∃ n ∈ (applyOps (initUI t) ops).graph.nodes, n.id = q) ↔
        q ∈ specVisibleIds (expandedGate (applyOps (initUI t) ops).graph) t := by
  intro q
  rw [← GraphState.mem_ids_iff]
  exact (Inv.applyOps hnd ops (initUI t) (Inv.init t hnd)).vis q

theorem toggleFolder_noop_eq {u : UIState} {nid : String}
    {jitter : String → Int × Int} {p : GraphNode}
    (hfind : u.graph.nodes.find? (fun n => n.id == nid) = some p)
    (hpe : p.isExpanded = false) (hco : p.data.childrenOpt = none) :
    toggleFolder u nid jitter = u := by
  simp only [toggleFolder, hfind, hpe, hco]
  rw [if_neg (by simp)]

/-- C2: for every tree whose root `t` has a child `B` (and any jitter
outcomes), expanding the root, then expanding `B`, then collapsing the root
leaves a graph whose only node is the root, collapsed — in particular
neither `B` nor any node of `B`'s subtree remains, and no link remains. -/
theorem c2_collapse_removes_expanded_subtree (t B : FileSystemNode)
    (hnd : t.allPaths.Nodup) (hB : B ∈ t.childrenList)
    (j1 j2 j3 : String → Int × Int) :
    ((applyOps (initUI t) [(t.path, j1), (B.path, j2), (t.path, j3)]).graph.nodes.map
        (fun n => n.id)) = [t.path] ∧
    (applyOps (initUI t) [(t.path, j1), (B.path, j2), (t.path, j3)]).graph.links = [] ∧
    (∀ n ∈ (applyOps (initUI t)
        [(t.path, j1), (B.path, j2), (t.path, j3)]).graph.nodes,
      n.isExpanded = false ∧ n.id ∉ B.allPaths) := by
  have hBsub : B ∈ t.subtrees := FileSystemNode.child_mem_subtrees hB
  have hBlt : sizeOf B < sizeOf t := FileSystemNode.sizeOf_lt_of_mem_childrenList hB
  have hBne : ¬ B.path = t.path := by
    intro h
    have hBt : B = t := FileSystemNode.path_inj hnd hBsub t.self_mem_subtrees h
    rw [hBt] at hBlt
    omega
  have htB : t.path ∉ B.allPaths := by
    intro h
    rcases FileSystemNode.mem_allPaths_iff.mp h with ⟨x, hx, hxp⟩
    have hxsub : x ∈ t.subtrees := FileSystemNode.subtrees_trans t hBsub hx
    have hxt : x = t := FileSystemNode.path_inj hnd hxsub t.self_mem_subtrees hxp
    have h1 : sizeOf x ≤ sizeOf B := FileSystemNode.sizeOf_le_of_mem_subtrees B hx
    rw [hxt] at h1
    omega
  obtain ⟨cs, hcs, hBcs⟩ : ∃ cs, t.childrenOpt = some cs ∧ B ∈ cs := by
    cases h : t.childrenOpt with
    | none =>
      rw [FileSystemNode.childrenList, h] at hB
      cases hB
    | some cs2 =>
      rw [FileSystemNode.childrenList, h] at hB
      exact ⟨cs2, rfl, hB⟩
  have hInv0 : Inv t (initState t) := Inv.init t hnd
  have hrootmem : rootNode t ∈ (initState t).nodes := List.mem_singleton.mpr rfl
  have hfind1 : (initState t).nodes.find? (fun n => n.id == t.path) =
      some (rootNode t) := hInv0.find?_self hrootmem
  set s1 := expandNode (initState t) (rootNode t) j1 with hs1
  have hu1 : toggleFolder (initUI t) t.path j1 =
      { graph := s1, focusNodeId := some (rootNode t).id, analyzingNodeId := none } :=
    toggleFolder_expand_eq hfind1 rfl hcs
  have hInv1 : Inv t s1 := Inv.expand hnd hInv0 hrootmem rfl j1
  set nB : GraphNode :=
    { id := B.path, name := B.fields.name, ntype := B.fields.ntype,
      data := B, x := (rootNode t).x + (j1 B.path).1,
      y := (rootNode t).y + (j1 B.path).2,
      fx := none, fy := none, isExpanded := false,
      depth := (rootNode t).depth + 1 } with hnBdef
  have hnBmem : nB ∈ s1.nodes := by
    rw [hnBdef, hs1, expandNode]
    refine List.mem_append.mpr (Or.inr (List.mem_map.mpr ⟨B, hB, rfl⟩))
  have hfind2 : s1.nodes.find? (fun n => n.id == B.path) = some nB :=
    hInv1.find?_self hnBmem
  have hgate1 : expandedGate s1 t.path = true := by
    rw [hs1, expandedGate_expandNode j1 hrootmem,
      if_pos (show t.path = (rootNode t).id from rfl)]
  set u1 : UIState :=
    { graph := s1, focusNodeId := some (rootNode t).id, analyzingNodeId := none }
    with hu1def
  set u2 := toggleFolder u1 B.path j2 with hu2def
  have hInv2 : Inv t u2.graph := Inv.toggle hnd hInv1 B.path j2
  have hgate2 : expandedGate u2.graph t.path = true := by
    rw [hu2def]
    cases hBco : B.childrenOpt with
    | none =>
      rw [toggleFolder_noop_eq hfind2 rfl hBco]
      exact hgate1
    | some csB =>
      rw [toggleFolder_expand_eq hfind2 rfl hBco]
      show expandedGate (expandNode s1 nB j2) t.path = true
      rw [expandedGate_expandNode j2 hnBmem]
      rw [if_neg (fun h => hBne h.symm)]
      exact hgate1
  obtain ⟨r, hr, hrid, hrexp⟩ := expandedGate_eq_true_iff.mp hgate2
  have hfind3 : u2.graph.nodes.find? (fun n => n.id == t.path) = some r := by
    have h := hInv2.find?_self hr
    rw [hrid] at h
    exact h
  have hu3 : toggleFolder u2 t.path j3 =
      { u2 with graph := collapseNode u2.graph r.id, focusNodeId := some r.id } :=
    toggleFolder_collapse_eq hfind3 hrexp
  have hInv3 : Inv t (collapseNode u2.graph r.id) := Inv.collapse hnd hInv2 hr
  have hgate3 : expandedGate (collapseNode u2.graph r.id) r.id = false := by
    rw [expandedGate_collapseNode hInv2 hr]
    rw [if_neg (hInv2.self_not_mem_findDescendants hnd hr), if_pos rfl]
  have hids3 : ∀ q, q ∈ (collapseNode u2.graph r.id).ids ↔ q = t.path := by
    intro q
    rw [hInv3.vis q, specVisibleIds_def]
    rw [← hrid]
    rw [hgate3]
    simp
  have hmap3 : (collapseNode u2.graph r.id).ids = [t.path] :=
    eq_singleton_of_nodup_of_mem_iff hInv3.nodup hids3
  have happ : applyOps (initUI t) [(t.path, j1), (B.path, j2), (t.path, j3)] =
      { u2 with graph := collapseNode u2.graph r.id, focusNodeId := some r.id } := by
    show applyOps (toggleFolder (initUI t) t.path j1) [(B.path, j2), (t.path, j3)] = _
    rw [hu1]
    show applyOps (toggleFolder u1 B.path j2) [(t.path, j3)] = _
    show applyOps (toggleFolder u2 t.path j3) [] = _
    rw [hu3]
    rfl
  rw [happ]
  refine ⟨hmap3, ?_, ?_⟩
  · rw [List.eq_nil_iff_forall_not_mem]
    intro l hl
    rcases hInv3.link_mem l hl with ⟨_, p2, c2, hp2, hc2, hs2, ht2, _, htv⟩
    have hc2t : c2.path = t.path := by
      have := (hids3 l.target).mp htv
      rw [← ht2]
      exact this
    have hc2sub : c2 ∈ t.subtrees := FileSystemNode.childmem_subtrees_of_mem hp2 hc2
    have hc2eq : c2 = t := FileSystemNode.path_inj hnd hc2sub t.self_mem_subtrees hc2t
    have h1 : sizeOf c2 < sizeOf p2 := FileSystemNode.sizeOf_lt_of_mem_childrenList hc2
    have h2 : sizeOf p2 ≤ sizeOf t := FileSystemNode.sizeOf_le_of_mem_subtrees t hp2
    rw [hc2eq] at h1
    omega
  · intro n hn
    have hnid : n.id = t.path :=
      (hids3 n.id).mp (GraphState.mem_ids_iff.mpr ⟨n, hn, rfl⟩)
    constructor
    · by_contra hne
      have hne2 : n.isExpanded = true := by
        cases h : n.isExpanded
        · exact absurd h hne
        · rfl
      have : expandedGate (collapseNode u2.graph r.id) r.id = true :=
        expandedGate_eq_true_iff.mpr ⟨n, hn, by rw [hnid, hrid], hne2⟩
      rw [this] at hgate3
      cases hgate3
    · rw [hnid]
      exact htB

theorem analyzeFile_anaRes_none (u : UIState) (d : GraphNode)
    (jitter : String → Int × Int) (env : ClickEnv) (h : env.anaRes = none) :
    analyzeFile u d jitter env =
      ({ u with analyzingNodeId := none, focusNodeId := some d.id }, []) := by
  rw [analyzeFile]
  simp only [h]
  split
  · rfl
  · rfl

theorem analyzeFile_fetch_error (u : UIState) (d : GraphNode)
    (jitter : String → Int × Int) (env : ClickEnv) (e : String)
    (hc : strTruthy d.data.fields.content = false)
    (hd : strTruthy d.data.fields.downloadUrl = true)
    (h : env.fetchRes = Except.error e) :
    analyzeFile u d jitter env =
      ({ u with analyzingNodeId := none, focusNodeId := some d.id }, []) := by
  rw [analyzeFile]
  simp only [if_pos (And.intro hc hd), h]

/-- C3 (counterexample): two concurrent expand clicks on the same
unanalyzed File node with local content — the second arriving while the
first one is still suspended at its `await analyzeCode` — have issued TWO
analysis invocations, not exactly one: the click path re-evaluates only
`d.data.analyzed` (unchanged until the first resolution) and never
consults the in-flight indicator. -/
theorem c3_counterexample_two_invocations :
    (clickStart "a.ts" (clickStart "a.ts" concState0)).calls = 2 ∧
    ¬ (clickStart "a.ts" (clickStart "a.ts" concState0)).calls = 1 := by
  decide

/-- C3 (amended): concurrent expand requests on the same unanalyzed file
are NOT coalesced — each click that passes the file guard issues its own
`analyzeCode` invocation, so two concurrent clicks make exactly two calls
(`analyzingNodeId` is only a display indicator). -/
theorem c3_no_coalescing (s : ConcState) (nid1 nid2 : String)
    (h : fileClickGuard s.fileData = true) :
    (clickStart nid2 (clickStart nid1 s)).calls = s.calls + 2 := by
  simp [clickStart, h]

/-- Witness for the amended C3 at a concrete file. -/
theorem c3_no_coalescing_witness :
    fileClickGuard concFileFields = true ∧
    (clickStart "b" (clickStart "a" concState0)).calls = concState0.calls + 2 :=
  ⟨by decide, c3_no_coalescing concState0 "a" "b" (by decide)⟩

/-- C6 (counterexample): the link distance ignores `CLASS` and `COMPONENT`
targets — they fall through to the folder distance 180, which is not
smaller than the file distance 120, refuting "symbol targets are kept at
the tightest distance". -/
theorem c6_counterexample_class_component_not_tight :
    ¬ (linkDistance NodeType.CLASS < linkDistance NodeType.FILE ∧
       linkDistance NodeType.COMPONENT < linkDistance NodeType.FILE) := by
  decide

/-- C6 (amended): the distance depends on the target's kind, but only
`FUNCTION` targets get the tight distance 80; `FILE` targets get 120; all
other targets — folders and also the `CLASS`/`COMPONENT` symbol nodes —
get 180; so `FUNCTION` < `FILE` < `FOLDER` holds but not for the other
symbol kinds. -/
theorem c6_link_distance_by_target_kind :
    linkDistance NodeType.FUNCTION = 80 ∧ linkDistance NodeType.FILE = 120 ∧
    linkDistance NodeType.FOLDER = 180 ∧ linkDistance NodeType.CLASS = 180 ∧
    linkDistance NodeType.COMPONENT = 180 ∧
    linkDistance NodeType.FUNCTION < linkDistance NodeType.FILE ∧
    linkDistance NodeType.FILE < linkDistance NodeType.FOLDER := by
  decide

/-- C5 (counterexample): enrichment does not append to existing children —
after enriching a file that already has a child named `keep` with a result
whose only item is `run`, the children are exactly `run` and `keep` is
gone: the assignment replaces the list. -/
theorem c5_counterexample_replaces_children :
    ((enrichData preEnrichedFile scenarioResult).childrenList.map
      (fun c => c.fields.name)) = ["run"] ∧
    "keep" ∉ ((enrichData preEnrichedFile scenarioResult).childrenList.map
      (fun c => c.fields.name)) := by
  decide

/-- C5 (amended): enrichment replaces the node's children wholesale with
the mapped analysis items — the outcome is independent of the previous
children (there is no append and no (name, kind) duplicate suppression) —
and it is therefore idempotent: enriching twice with the same result
yields exactly the node of enriching once, with no duplicated children. -/
theorem c5_enrich_idempotent_by_replacement :
    (∀ (i : FsFields) (co1 co2 : Option (List FileSystemNode))
        (r : AIAnalysisResult),
      (enrichData (FileSystemNode.mk i co1) r).childrenOpt =
        (enrichData (FileSystemNode.mk i co2) r).childrenOpt) ∧
    (∀ (d : FileSystemNode) (r : AIAnalysisResult),
      enrichData (enrichData d r) r = enrichData d r) := by
  constructor
  · intro i co1 co2 r
    rfl
  · intro d r
    cases d
    rfl

/-- C4: every analysis failure is absorbed as a soft no-op.  `analyzeCode`
returns `null` (never throws) on a missing API key, a transport error, a
missing response text, or a parse failure; and `analyzeFile` turns a null
analysis — or a failed remote content fetch — into "no children added":
the graph is unchanged, the node's tree data is untouched (`analyzed`
remains `false`, so a later retry is possible), no second selection is
emitted, and the analyzing indicator is cleared.  Being a total function,
the embedded `analyzeFile` propagates no exception to the layout or
camera. -/
theorem c4_analysis_failure_is_soft :
    (∀ (r : Except String (Option String)) (p : String → Option AIAnalysisResult),
      analyzeCode none r p = none) ∧
    (∀ (k : Option String) (p : String → Option AIAnalysisResult) (e : String),
      analyzeCode k (Except.error e) p = none) ∧
    (∀ (k : Option String) (p : String → Option AIAnalysisResult),
      analyzeCode k (Except.ok none) p = none) ∧
    (∀ (k : Option String) (s : String),
      analyzeCode k (Except.ok (some s)) (fun _ => none) = none) ∧
    (∀ (u : UIState) (d : GraphNode) (jitter : String → Int × Int)
        (env : ClickEnv), env.anaRes = none →
      analyzeFile u d jitter env =
        ({ u with analyzingNodeId := none, focusNodeId := some d.id }, [])) ∧
    (∀ (u : UIState) (d : GraphNode) (jitter : String → Int × Int)
        (env : ClickEnv) (e : String),
      strTruthy d.data.fields.content = false →
      strTruthy d.data.fields.downloadUrl = true →
      env.fetchRes = Except.error e →
      analyzeFile u d jitter env =
        ({ u with analyzingNodeId := none, focusNodeId := some d.id }, [])) := by
  refine ⟨fun r p => rfl, ?_, ?_, ?_, analyzeFile_anaRes_none, analyzeFile_fetch_error⟩
  · intro k p e
    cases k <;> rfl
  · intro k p
    cases k <;> rfl
  · intro k s
    cases k <;> rfl

/-- Witness for C4 at a concrete node and failing environment. -/
theorem c4_analysis_failure_is_soft_witness :
    failEnv.anaRes = none ∧
    analyzeFile (initUI scenarioTree) scenarioFileNode scenarioJitter failEnv =
      ({ initUI scenarioTree with analyzingNodeId := none, focusNodeId := some scenarioFileNode.id }, []) :=
  ⟨rfl, c4_analysis_failure_is_soft.2.2.2.2.1 (initUI scenarioTree)
    scenarioFileNode scenarioJitter failEnv rfl⟩

/-- C7: every synthetic child created from an analysis result gets the
derived id `parentId ++ "#" ++ name` (the symbol separator, distinct from
the `/` path separator) and the file is marked analyzed; concretely, in the
spec scenario (expand root, expand src, click the unanalyzed `main.ts`
whose analysis returns one Function item `run`) the final graph contains a
node with id `main.ts#run` and the `main.ts` node has `analyzed = true`. -/
theorem c7_synthetic_child_ids :
    (∀ (d : FileSystemNode) (r : AIAnalysisResult),
      ((enrichData d r).childrenList.map (fun c => c.path)) =
        r.items.map (fun item => d.path ++ "#" ++ item.name) ∧
      (enrichData d r).fields.analyzed = true) ∧
    ((∃ n ∈ scenarioFinal.graph.nodes, n.id = "main.ts#run") ∧
     (∃ n ∈ scenarioFinal.graph.nodes, n.id = "main.ts" ∧
        n.data.fields.analyzed = true)) := by
  constructor
  · intro d r
    constructor
    · simp only [enrichData, FileSystemNode.childrenList,
        FileSystemNode.childrenOpt, List.map_map]
      rfl
    · rfl
  · constructor
    · decide
    · decide

/-- C8 (counterexample): in the scenario, the click on the unanalyzed
`main.ts` whose analysis succeeds notifies the external selection sink
TWICE — first with the clicked node's data, then again with the enriched
data — refuting "notified exactly once" for every click. -/
theorem c8_counterexample_double_notification :
    scenarioThirdSelections.length = 2 ∧
    ¬ scenarioThirdSelections.length = 1 := by
  decide

/-- C8 (amended): every click notifies the selection sink first with the
clicked node's tree data; a click on a symbol node (Function, Class,
Component) does nothing but set the camera focus — the graph and the
notification list `[d.data]` show it never expands, collapses, or changes
the visible set; and whenever the analysis environment yields no result,
every click notifies exactly once — the only second notification comes
from a successful analysis. -/
theorem c8_click_notifies_and_symbol_focus_only :
    (∀ (u : UIState) (d : GraphNode) (jitter : String → Int × Int)
        (env : ClickEnv),
      ((handleNodeClick u d jitter env).2).head? = some d.data) ∧
    (∀ (u : UIState) (d : GraphNode) (jitter : String → Int × Int)
        (env : ClickEnv),
      (d.ntype = NodeType.FUNCTION ∨ d.ntype = NodeType.CLASS ∨
        d.ntype = NodeType.COMPONENT) →
      handleNodeClick u d jitter env =
        ({ u with focusNodeId := some d.id }, [d.data])) ∧
    (∀ (u : UIState) (d : GraphNode) (jitter : String → Int × Int)
        (env : ClickEnv), env.anaRes = none →
      ((handleNodeClick u d jitter env).2).length = 1) := by
  refine ⟨?_, ?_, ?_⟩
  · intro u d jitter env
    rw [handleNodeClick]
    cases d.ntype
    · rfl
    · by_cases hg : fileClickGuard d.data.fields = true
      · rw [if_pos hg]; rfl
      · rw [if_neg hg]
        by_cases hl : d.data.childrenList.length > 0
        · rw [if_pos hl]; rfl
        · rw [if_neg hl]; rfl
    · rfl
    · rfl
    · rfl
  · intro u d jitter env h
    rcases h with h | h | h <;> simp only [handleNodeClick, h]
  · intro u d jitter env h
    rw [handleNodeClick]
    cases d.ntype
    · rfl
    · by_cases hg : fileClickGuard d.data.fields = true
      · rw [if_pos hg, analyzeFile_anaRes_none u d jitter env h]; rfl
      · rw [if_neg hg]
        by_cases hl : d.data.childrenList.length > 0
        · rw [if_pos hl]; rfl
        · rw [if_neg hl]; rfl
    · rfl
    · rfl
    · rfl

/-- Witness for the amended C8 at a concrete symbol-node click. -/
theorem c8_click_notifies_witness :
    (scenarioSymbolNode.ntype = NodeType.FUNCTION ∨
     scenarioSymbolNode.ntype = NodeType.CLASS ∨
     scenarioSymbolNode.ntype = NodeType.COMPONENT) ∧
    handleNodeClick (initUI scenarioTree) scenarioSymbolNode scenarioJitter
        scenarioEnv =
      ({ initUI scenarioTree with focusNodeId := some scenarioSymbolNode.id }, [scenarioSymbolNode.data]) :=
  ⟨Or.inl rfl,
   c8_click_notifies_and_symbol_focus_only.2.1 (initUI scenarioTree)
     scenarioSymbolNode scenarioJitter scenarioEnv (Or.inl rfl)⟩

/-- C9: the root GraphNode is created at the origin with `fx = fy = 0`, so
the d3 simulation holds it fixed there; `dragstarted`/`dragged` pin any
dragged node, and `dragended` sets `fx`/`fy` to null on whatever node the
drag ends on — the root included — releasing it into normal dynamics. -/
theorem c9_root_pinned_until_dragend :
    (∀ t : FileSystemNode, (rootNode t).x = 0 ∧ (rootNode t).y = 0 ∧
      (rootNode t).fx = some 0 ∧ (rootNode t).fy = some 0) ∧
    (∀ n : GraphNode, (dragstarted n).fx = some n.x ∧
      (dragstarted n).fy = some n.y) ∧
    (∀ (px py : Int) (n : GraphNode), (dragged px py n).fx = some px ∧
      (dragged px py n).fy = some py) ∧
    (∀ n : GraphNode, (dragended n).fx = none ∧ (dragended n).fy = none) :=
  ⟨fun t => ⟨rfl, rfl, rfl, rfl⟩, fun n => ⟨rfl, rfl⟩,
   fun px py n => ⟨rfl, rfl⟩, fun n => ⟨rfl, rfl⟩⟩

/-- C10: in both local ingestion paths (directory upload and drag-and-drop)
a file's text is stored in `content` only when its size is strictly below
200000 bytes: any stored content implies `size < 200000`, and at size
200000 or more the content is absent and the node — having neither content
nor a `downloadUrl` — fails the click guard, so it cannot be analyzed from
a local upload. -/
theorem c10_local_content_size_gate (name path parentPath : String)
    (size : Nat) (readText : Except String String) :
    (∀ s : String,
      (parseFilesFileNode name path size readText).fields.content = some s →
        size < 200000) ∧
    (∀ s : String,
      (parseFileEntryFileNode name parentPath size readText).fields.content =
        some s → size < 200000) ∧
    (200000 ≤ size →
      (parseFilesFileNode name path size readText).fields.content = none ∧
      (parseFileEntryFileNode name parentPath size readText).fields.content =
        none ∧
      fileClickGuard (parseFilesFileNode name path size readText).fields =
        false ∧
      fileClickGuard
        (parseFileEntryFileNode name parentPath size readText).fields =
        false) := by
  refine ⟨?_, ?_, ?_⟩
  · intro s hs
    by_cases h : size < 200000
    · exact h
    · exfalso
      rw [parseFilesFileNode] at hs
      simp only [if_neg h] at hs
      cases hs
  · intro s hs
    by_cases h : size < 200000
    · exact h
    · exfalso
      rw [parseFileEntryFileNode] at hs
      simp only [if_neg h] at hs
      cases hs
  · intro h
    have hlt : ¬ size < 200000 := by omega
    refine ⟨?_, ?_, ?_, ?_⟩
    · simp [parseFilesFileNode, if_neg hlt]
    · simp [parseFileEntryFileNode, if_neg hlt]
    · simp [parseFilesFileNode, if_neg hlt, fileClickGuard, strTruthy]
    · simp [parseFileEntryFileNode, if_neg hlt, fileClickGuard, strTruthy]

/-- Witness for C10 at the boundary size 200000. -/
theorem c10_local_content_size_gate_witness :
    200000 ≤ 200000 ∧
    (parseFilesFileNode "big.bin" "big.bin" 200000
      (Except.ok "text")).fields.content = none ∧
    (parseFileEntryFileNode "big.bin" "" 200000
      (Except.ok "text")).fields.content = none ∧
    fileClickGuard (parseFilesFileNode "big.bin" "big.bin" 200000
      (Except.ok "text")).fields = false ∧
    fileClickGuard (parseFileEntryFileNode "big.bin" "" 200000
      (Except.ok "text")).fields = false :=
  ⟨le_refl _, (c10_local_content_size_gate "big.bin" "big.bin" "" 200000
    (Except.ok "text")).2.2 (le_refl _)⟩

/-- Witness for C1: the invariant instantiated at the scenario tree with a
concrete operation sequence (expand root, expand src, collapse root). -/
theorem c1_visible_iff_ancestors_expanded_witness :
    scenarioTree.allPaths.Nodup ∧
    (∀ q : String,
      (∃ n ∈ (applyOps (initUI scenarioTree)
          [("root", scenarioJitter), ("src", scenarioJitter),
           ("root", scenarioJitter)]).graph.nodes, n.id = q) ↔
        q ∈ specVisibleIds (expandedGate (applyOps (initUI scenarioTree)
          [("root", scenarioJitter), ("src", scenarioJitter),
           ("root", scenarioJitter)]).graph) scenarioTree) :=
  ⟨by decide, c1_visible_iff_ancestors_expanded scenarioTree (by decide)
    [("root", scenarioJitter), ("src", scenarioJitter),
     ("root", scenarioJitter)]⟩

/-- Witness for C2 at the scenario tree: expand the root, expand its child
`src`, collapse the root. -/
theorem c2_collapse_removes_expanded_subtree_witness :
    scenarioTree.allPaths.Nodup ∧ scenarioSrc ∈ scenarioTree.childrenList ∧
    (((applyOps (initUI scenarioTree)
        [(scenarioTree.path, scenarioJitter), (scenarioSrc.path, scenarioJitter),
         (scenarioTree.path, scenarioJitter)]).graph.nodes.map
        (fun n => n.id)) = [scenarioTree.path] ∧
     (applyOps (initUI scenarioTree)
        [(scenarioTree.path, scenarioJitter), (scenarioSrc.path, scenarioJitter),
         (scenarioTree.path, scenarioJitter)]).graph.links = [] ∧
     (∀ n ∈ (applyOps (initUI scenarioTree)
        [(scenarioTree.path, scenarioJitter), (scenarioSrc.path, scenarioJitter),
         (scenarioTree.path, scenarioJitter)]).graph.nodes,
       n.isExpanded = false ∧ n.id ∉ scenarioSrc.allPaths)) :=
  ⟨by decide, List.mem_cons_self _ _,
   c2_collapse_removes_expanded_subtree scenarioTree scenarioSrc (by decide)
     (List.mem_cons_self _ _) scenarioJitter scenarioJitter scenarioJitter⟩

end MapMyRepo
